import Mathlib

/-!
Formal model of the correction validation and application engine of the
auto-debugger-agent repository (src/json_validator.py, src/patcher.py).

Text is modelled as `List Char` (Python `str`); the file system as a partial
map from paths to file contents.  Each definition is a direct translation of
the corresponding Python function; doc comments name the source function.
The JSON codec (Python's `json.loads` / the spec's `extract_as_text`
serialization, which the repository delegates to the standard library) is
modelled explicitly with a recursive-descent parser and a printer.
-/

namespace AutoDebugger

/-- Characters stripped by Python's `str.lstrip("\t ")` and the indentation
scan in `apply_indent` (patcher.py lines 19-24): space and tab. -/
def isSpTab (c : Char) : Bool := c = ' ' || c = '\t'

/-- Python `str.strip()` whitespace set (ASCII part): space, tab, newline,
carriage return, vertical tab, form feed. -/
def isPyWS (c : Char) : Bool :=
  c = ' ' || c = '\t' || c = '\n' || c = '\r' || c = '\x0b' || c = '\x0c'

/-- JSON grammar whitespace accepted between tokens by `json.loads`. -/
def isJsonWS (c : Char) : Bool := c = ' ' || c = '\t' || c = '\n' || c = '\r'

/-- Python `str.strip()` : drop whitespace from both ends. -/
def stripPy (cs : List Char) : List Char :=
  ((cs.dropWhile isPyWS).reverse.dropWhile isPyWS).reverse

/-- Python `str.splitlines()` (without keepends), restricted to the line
boundaries `\n`, `\r\n` and `\r` that occur in this pipeline. -/
def pySplitlines : List Char → List (List Char)
  | [] => []
  | '\n' :: rest => [] :: pySplitlines rest
  | '\r' :: '\n' :: rest => [] :: pySplitlines rest
  | '\r' :: rest => [] :: pySplitlines rest
  | c :: rest =>
    match pySplitlines rest with
    | [] => [[c]]
    | l :: ls => (c :: l) :: ls

/-- Python `file.readlines()` : split into lines keeping the `\n`
terminators; a final fragment without `\n` is kept as a last line. -/
def splitLinesKE : List Char → List (List Char)
  | [] => []
  | c :: rest =>
    if c = '\n' then ['\n'] :: splitLinesKE rest
    else
      match splitLinesKE rest with
      | [] => [[c]]
      | l :: ls => (c :: l) :: ls

/-- Python `"\n".join(lines)`. -/
def joinNL : List (List Char) → List Char
  | [] => []
  | [l] => l
  | l :: ls => l ++ '\n' :: joinNL ls

/-- Python `file.writelines(lines)` : plain concatenation. -/
def joinLines (ls : List (List Char)) : List Char := ls.flatMap id

/-- Python `str.endswith("\n")`. -/
def endsWithNL (cs : List Char) : Bool :=
  match cs.getLast? with
  | some c => c = '\n'
  | none => false

/- ===================== patcher.py ===================== -/

/-- `apply_indent(reference_line, new_code)` (patcher.py lines 6-26):
keep the space/tab indentation prefix of the reference line, strip any
leading space/tab from the new code. The `reference_line is None` branch is
modelled by the `Option`. -/
def apply_indent (referenceLine : Option (List Char)) (newCode : List Char) :
    List Char :=
  match referenceLine with
  | none => newCode
  | some ref => ref.takeWhile isSpTab ++ newCode.dropWhile isSpTab

/-- Failure modes of `apply_patch` / `restore_backup`, one constructor per
raise site (messages elided). `typeErr` stands for the `TypeError` Python
itself raises when a field has the wrong runtime type. -/
inductive PatchErr where
  | fileNotFound       -- FileNotFoundError (patcher.py line 58 / 150)
  | keyErr             -- KeyError on a missing dict key
  | typeErr            -- TypeError from misusing a null/mistyped field
  | indexErr           -- IndexError, common bounds check (line 72)
  | replaceIndexErr    -- IndexError in the replace branch (line 82)
  | deleteIndexErr     -- IndexError in the delete branch (line 120)
  | valueErr           -- ValueError, unknown action (line 128)
deriving DecidableEq

mutual
/-- JSON values as produced by `json.loads` : objects are modelled as the
(ordered) field list of the parsed text. -/
inductive Json where
  | null
  | bool (b : Bool)
  | num (n : Int)
  | str (s : List Char)
  | arr (elems : JsonArr)
  | obj (fields : JsonFields)
deriving DecidableEq

inductive JsonArr where
  | nil
  | cons (hd : Json) (tl : JsonArr)
deriving DecidableEq

inductive JsonFields where
  | nil
  | cons (key : List Char) (val : Json) (tl : JsonFields)
deriving DecidableEq
end

/-- Key lookup in a parsed JSON object (Python `parsed["k"]` /
`k in parsed`).  First match; a parsed object with duplicate keys never
reaches the validator in practice (Python's dict keeps one binding). -/
def jlookup : JsonFields → List Char → Option Json
  | .nil, _ => none
  | .cons k v tl, key => if k = key then some v else jlookup tl key

/-- The file system: a partial map from paths to file contents.  This backs
`os.path.exists`, `open(...).readlines()`, `writelines` and
`shutil.copyfile` in patcher.py. -/
def FS : Type := List Char → Option (List Char)

/-- Writing a file (also the effect of `shutil.copyfile src dst` once the
source content is in hand). -/
def setFile (fs : FS) (path content : List Char) : FS :=
  fun q => if q = path then some content else fs q

/-- `os.path.join(project_root, "sources", file_name)` (patcher.py
line 55). -/
def targetPath (projectRoot fileName : List Char) : List Char :=
  projectRoot ++ ('/' :: ('s' :: 'o' :: 'u' :: 'r' :: 'c' :: 'e' :: 's' :: ['/'])) ++ fileName

/-- `file_path + ".bak"` (patcher.py line 61 / 147). -/
def backupPath (path : List Char) : List Char := path ++ ('.' :: 'b' :: 'a' :: ['k'])

/-- The string returned by `apply_patch` for `action = "none"`
(patcher.py line 48). -/
def noneMsg : List Char := "Aucune correction à appliquer.".toList

/-- Appends a `"\n"` when the line does not already end with one
(patcher.py lines 91-92 / 111-112). -/
def ensureNL (cs : List Char) : List Char :=
  if endsWithNL cs then cs else cs ++ ['\n']

/-- The indentation reference line of the `insert` branch (patcher.py
lines 100-107): the line at `index` when it exists, else the line before
it, else the empty string. -/
def insertRefLine (lines : List (List Char)) (index : Int) : List Char :=
  if 0 ≤ index ∧ index < (lines.length : Int) then lines.getD index.toNat []
  else if index > 0 then lines.getD (index.toNat - 1) []
  else []

/-- The per-action core of `apply_patch` (patcher.py lines 69-128): the
common bounds check on `index = line_number - 1`, then the
replace / insert / delete branches acting on the line list read from the
file.  `av` is the raw `action` value, `ncv` the raw `new_code` value (a
non-string `new_code` only faults inside the branches that use it, as in
Python). -/
def apply_patch_core (av : Json) (lineNumber : Int) (ncv : Json)
    (lines : List (List Char)) : Except PatchErr (List (List Char)) :=
  let index : Int := lineNumber - 1
  if index < 0 ∨ index > (lines.length : Int) then .error .indexErr
  else
    let idx : Nat := index.toNat
    match av with
    | .str a =>
      if a = "replace".toList then
        -- the bounds check (line 82) precedes any use of new_code
        if idx ≥ lines.length then .error .replaceIndexErr
        else
          match ncv with
          | .str newCode =>
            let originalLine := lines.getD idx []
            let newLine := ensureNL (apply_indent (some originalLine) newCode)
            .ok (lines.set idx newLine)
          | _ => .error .typeErr
      else if a = "insert".toList then
        match ncv with
        | .str newCode =>
          let newLine := ensureNL (apply_indent (some (insertRefLine lines index)) newCode)
          .ok (lines.insertIdx idx newLine)
        | _ => .error .typeErr
      else if a = "delete".toList then
        if idx ≥ lines.length then .error .deleteIndexErr
        else .ok (lines.eraseIdx idx)
      else .error .valueErr
    | _ => .error .valueErr

/-- `apply_patch(project_root, correction)` (patcher.py lines 29-135).
Returns the file system after whatever side effects happened (the backup
copy persists even when a later step fails, exactly as in Python, where the
exception propagates after `shutil.copyfile` already ran) together with the
result: the modified file path, the no-op message for `action = "none"`, or
the error raised. -/
def apply_patch (projectRoot : List Char) (c : JsonFields) (fs : FS) :
    FS × Except PatchErr (List Char) :=
  match jlookup c "action".toList with
  | none => (fs, .error .keyErr)
  | some av =>
    if av = Json.str "none".toList then (fs, .ok noneMsg)
    else
      match jlookup c "file".toList, jlookup c "line".toList,
            jlookup c "new_code".toList with
      | some fv, some lv, some ncv =>
        match fv with
        | .str fileName =>
          let path := targetPath projectRoot fileName
          match fs path with
          | none => (fs, .error .fileNotFound)
          | some content =>
            -- shutil.copyfile(file_path, backup_path)  (line 62)
            let fs1 := setFile fs (backupPath path) content
            let lines := splitLinesKE content
            match lv with
            | .num lineNumber =>
              match apply_patch_core av lineNumber ncv lines with
              | .error e => (fs1, .error e)
              | .ok newLines => (setFile fs1 path (joinLines newLines), .ok path)
            | _ => (fs1, .error .typeErr)
        | _ => (fs, .error .typeErr)
      | _, _, _ => (fs, .error .keyErr)

/-- `restore_backup(project_root, file_name)` (patcher.py lines 138-154):
copy `<target>.bak` back over the target, failing when no backup exists. -/
def restore_backup (projectRoot fileName : List Char) (fs : FS) :
    FS × Except PatchErr (List Char) :=
  let path := targetPath projectRoot fileName
  let bak := backupPath path
  match fs bak with
  | none => (fs, .error .fileNotFound)
  | some content => (setFile fs path content, .ok path)

/- ===================== json_validator.py ===================== -/

/-- One constructor per `JsonValidationError` raise site of
json_validator.py (messages elided). -/
inductive VErr where
  | emptyResponse      -- raw text empty (line 99)
  | emptyAfterClean    -- cleaned text empty (line 52)
  | noJsonFound        -- no brace pair in the cleaned text (line 65)
  | parseFailed        -- the brace-extracted candidate does not parse (line 75)
  | missingKeys        -- a required key is missing (line 106)
  | invalidAction      -- action outside the enumeration (line 114)
  | noneFormat         -- action none with non-null companions (line 126)
  | badFile            -- file null / non-string / blank (line 138)
  | badLine            -- line non-integer or <= 0 (line 141)
  | lineTooBig         -- line > max_line (line 144)
  | badNewCodeType     -- new_code non-string for replace/insert (line 150)
  | blankNewCode       -- new_code blank for replace/insert (line 156)
  | deleteNewCode      -- new_code neither empty nor null for delete (line 163)
  | dangerousNewCode   -- denylisted token in new_code (line 174)
deriving DecidableEq

/-- Python's substring operator `needle in haystack`. -/
def containsTok (needle : List Char) : List Char → Bool
  | [] => needle.isPrefixOf []
  | c :: rest => needle.isPrefixOf (c :: rest) || containsTok needle rest

/-- The fixed safety denylist of `validate_json_correction`
(json_validator.py line 172). -/
def dangerous_tokens : List (List Char) :=
  ["os.system".toList, "subprocess".toList, "shutil.rmtree".toList,
   "open(".toList, "exec(".toList, "eval(".toList]

/-- json_validator.py lines 148-179: the `new_code` checks, reached once
`file`/`line` passed.  For `replace`/`insert`: `new_code` must be a string,
non-blank, and free of denylisted tokens (checked on the lowercased text);
for `delete`: `new_code` must be the empty string or null. -/
def validateActionFields (parsed : JsonFields) (a : List Char) (ncv : Json) :
    Except VErr JsonFields :=
  if a = "replace".toList ∨ a = "insert".toList then
    match ncv with
    | .str newCode =>
      if stripPy newCode = [] then .error .blankNewCode
      else
        let lowered := newCode.map Char.toLower
        if dangerous_tokens.any (fun tok => containsTok tok lowered) then
          .error .dangerousNewCode
        else .ok parsed
    | _ => .error .badNewCodeType
  else -- a = "delete"
    if ncv = Json.str [] ∨ ncv = Json.null then .ok parsed
    else .error .deleteNewCode

/-- The schema / safety part of `validate_json_correction`
(json_validator.py lines 103-179), acting on the already-parsed candidate
object: required keys, action enumeration, the `none` null-pattern, the
field checks for `replace`/`insert`/`delete`, the optional `max_line`
bound, and the case-insensitive denylist screen.  Returns the candidate
unchanged on success. -/
def validateParsed (parsed : JsonFields) (maxLine : Option Int) :
    Except VErr JsonFields :=
  match jlookup parsed "file".toList, jlookup parsed "line".toList,
        jlookup parsed "action".toList, jlookup parsed "new_code".toList with
  | some fv, some lv, some av, some ncv =>
    match av with
    | .str a =>
      if a = "replace".toList ∨ a = "insert".toList ∨ a = "delete".toList ∨
          a = "none".toList then
        if a = "none".toList then
          match fv, lv, ncv with
          | .null, .null, .null => .ok parsed
          | _, _, _ => .error .noneFormat
        else
          match fv with
          | .str f =>
            if stripPy f = [] then .error .badFile
            else
              match lv with
              | .num n =>
                if n ≤ 0 then .error .badLine
                else
                  match maxLine with
                  | some m =>
                    if n > m then .error .lineTooBig
                    else validateActionFields parsed a ncv
                  | none => validateActionFields parsed a ncv
              | _ => .error .badLine
          | _ => .error .badFile
      else .error .invalidAction
    | _ => .error .invalidAction
  | _, _, _, _ => .error .missingKeys

/- ============ JSON codec (stdlib json.loads / json.dumps model) ============ -/

/-- Decimal digits of `n`, least significant first. -/
def natToDigitsRev (n : Nat) : List Char :=
  if h : n < 10 then [Nat.digitChar n]
  else Nat.digitChar (n % 10) :: natToDigitsRev (n / 10)
decreasing_by exact Nat.div_lt_self (by omega) (by omega)

/-- Decimal printing of a natural number, as Python's `repr`. -/
def printNat (n : Nat) : List Char := (natToDigitsRev n).reverse

/-- Decimal printing of an integer, as Python's `repr`. -/
def printInt (i : Int) : List Char :=
  if i < 0 then '-' :: printNat i.natAbs else printNat i.toNat

/-- Modelled from the spec: the string escaping of the serialization
(`extract_as_text`, Python `json.dumps`), covering the escapes the pipeline
produces: quote, backslash, newline, tab, carriage return; other characters
are emitted as themselves. -/
def escapeChar (c : Char) : List Char :=
  if c = '"' then '\\' :: ['"']
  else if c = '\\' then '\\' :: ['\\']
  else if c = '\n' then '\\' :: ['n']
  else if c = '\t' then '\\' :: ['t']
  else if c = '\r' then '\\' :: ['r']
  else [c]

/-- String-body escaping of the serialization. -/
def escapeString (s : List Char) : List Char := s.flatMap escapeChar

mutual
/-- Modelled from the spec: `extract_as_text` — serializing a structured
object back to text.  The repository has no serializer of its own (it only
parses with `json.loads`), so this follows Python's `json.dumps` with its
default separators `", "` and `": "`. -/
def serializeJson : Json → List Char
  | .null => 'n' :: 'u' :: 'l' :: ['l']
  | .bool true => 't' :: 'r' :: 'u' :: ['e']
  | .bool false => 'f' :: 'a' :: 'l' :: 's' :: ['e']
  | .num i => printInt i
  | .str s => '"' :: (escapeString s ++ ['"'])
  | .arr a => '[' :: (serializeArrItems a ++ [']'])
  | .obj f => '{' :: (serializeObjItems f ++ ['}'])

/-- Comma-separated serialization of array elements. -/
def serializeArrItems : JsonArr → List Char
  | .nil => []
  | .cons j tl => serializeJson j ++ serializeArrRest tl

/-- The `", elem"` continuations after the first array element. -/
def serializeArrRest : JsonArr → List Char
  | .nil => []
  | .cons j tl => ',' :: ' ' :: (serializeJson j ++ serializeArrRest tl)

/-- Comma-separated serialization of object fields (`"key": value`). -/
def serializeObjItems : JsonFields → List Char
  | .nil => []
  | .cons k v tl =>
    '"' :: (escapeString k ++ '"' :: ':' :: ' ' :: serializeJson v) ++
      serializeObjRest tl

/-- The `", "key": value"` continuations after the first object field. -/
def serializeObjRest : JsonFields → List Char
  | .nil => []
  | .cons k v tl =>
    ',' :: ' ' :: ('"' :: (escapeString k ++ '"' :: ':' :: ' ' :: serializeJson v)) ++
      serializeObjRest tl
end

/-- Reverse of `escapeChar` on the character after a backslash (the JSON
escape table of `json.loads`, without the `\uXXXX` form). -/
def unescapeChar (c : Char) : Option Char :=
  if c = '"' then some '"'
  else if c = '\\' then some '\\'
  else if c = '/' then some '/'
  else if c = 'n' then some '\n'
  else if c = 't' then some '\t'
  else if c = 'r' then some '\r'
  else if c = 'b' then some '\x08'
  else if c = 'f' then some '\x0c'
  else none

/-- JSON string body after the opening quote: raw characters and
backslash escapes up to the closing quote. -/
def parseStringBody : List Char → Option (List Char × List Char)
  | [] => none
  | '"' :: rest => some ([], rest)
  | '\\' :: [] => none
  | '\\' :: e :: rest2 =>
    match unescapeChar e with
    | none => none
    | some u =>
      match parseStringBody rest2 with
      | none => none
      | some (s, r) => some (u :: s, r)
  | c :: rest =>
    match parseStringBody rest with
    | none => none
    | some (s, r) => some (c :: s, r)

/-- Numeric value of a decimal digit character. -/
def digitVal (c : Char) : Nat := c.toNat - 48

/-- Greedy decimal-digit run, accumulating left to right. -/
def parseDigitsAux : List Char → Nat → Nat × List Char
  | [], acc => (acc, [])
  | c :: rest, acc =>
    if c.isDigit then parseDigitsAux rest (acc * 10 + digitVal c)
    else (acc, c :: rest)

/-- JSON integer literal: optional minus sign and a digit run. -/
def parseIntToken : List Char → Option (Int × List Char)
  | [] => none
  | c :: rest =>
    if c = '-' then
      match rest with
      | [] => none
      | d :: _ =>
        if d.isDigit then
          let p := parseDigitsAux rest 0
          some (-(p.1 : Int), p.2)
        else none
    else if c.isDigit then
      let p := parseDigitsAux (c :: rest) 0
      some ((p.1 : Int), p.2)
    else none

/-- `dropWhile` over JSON inter-token whitespace. -/
def skipWS (cs : List Char) : List Char := cs.dropWhile isJsonWS

def litTrue : List Char := 't' :: 'r' :: 'u' :: ['e']

def litFalse : List Char := 'f' :: 'a' :: 'l' :: 's' :: ['e']

def litNull : List Char := 'n' :: 'u' :: 'l' :: ['l']

mutual
/-- Model of `json.loads` : recursive-descent JSON value parser (fuelled;
`parseJsonTop` supplies sufficient fuel).  Integer numbers only: the
pipeline's directives carry no floats, and `\uXXXX` escapes are outside the
model. -/
def parseValue : Nat → List Char → Option (Json × List Char)
  | 0, _ => none
  | fuel + 1, cs0 =>
    match skipWS cs0 with
    | [] => none
    | c :: rest =>
      if c = '{' then
        if (skipWS rest).head? = some '}' then some (.obj .nil, (skipWS rest).tail)
        else
          match parseFieldList fuel rest with
          | some (fs, r) => some (.obj fs, r)
          | none => none
      else if c = '[' then
        if (skipWS rest).head? = some ']' then some (.arr .nil, (skipWS rest).tail)
        else
          match parseItemList fuel rest with
          | some (a, r) => some (.arr a, r)
          | none => none
      else if c = '"' then
        match parseStringBody rest with
        | some (s, r) => some (.str s, r)
        | none => none
      else if litTrue.isPrefixOf (c :: rest) then
        some (.bool true, (c :: rest).drop 4)
      else if litFalse.isPrefixOf (c :: rest) then
        some (.bool false, (c :: rest).drop 5)
      else if litNull.isPrefixOf (c :: rest) then
        some (.null, (c :: rest).drop 4)
      else
        match parseIntToken (c :: rest) with
        | some (i, r) => some (.num i, r)
        | none => none

/-- One-or-more comma-separated array elements, consuming the closing `]`. -/
def parseItemList : Nat → List Char → Option (JsonArr × List Char)
  | 0, _ => none
  | fuel + 1, cs =>
    match parseValue fuel cs with
    | none => none
    | some (v, r) =>
      if (skipWS r).head? = some ',' then
        match parseItemList fuel (skipWS r).tail with
        | some (tl, r3) => some (.cons v tl, r3)
        | none => none
      else if (skipWS r).head? = some ']' then some (.cons v .nil, (skipWS r).tail)
      else none

/-- One-or-more comma-separated object fields, consuming the closing `}`. -/
def parseFieldList : Nat → List Char → Option (JsonFields × List Char)
  | 0, _ => none
  | fuel + 1, cs =>
    if (skipWS cs).head? = some '"' then
      match parseStringBody (skipWS cs).tail with
      | none => none
      | some (k, r1) =>
        if (skipWS r1).head? = some ':' then
          match parseValue fuel (skipWS r1).tail with
          | none => none
          | some (v, r3) =>
            if (skipWS r3).head? = some ',' then
              match parseFieldList fuel (skipWS r3).tail with
              | some (tl, r5) => some (.cons k v tl, r5)
              | none => none
            else if (skipWS r3).head? = some '}' then
              some (.cons k v .nil, (skipWS r3).tail)
            else none
        else none
    else none
end

mutual
/-- Node-count measure used to bound the fuel the parser needs. -/
def jsize : Json → Nat
  | .null => 1
  | .bool _ => 1
  | .num _ => 1
  | .str _ => 1
  | .arr a => asize a + 1
  | .obj f => fsize f + 1

def asize : JsonArr → Nat
  | .nil => 0
  | .cons j tl => jsize j + asize tl + 1

def fsize : JsonFields → Nat
  | .nil => 0
  | .cons _ v tl => jsize v + fsize tl + 1
end

/-- Full-input parse with trailing whitespace allowed, as `json.loads`. -/
def parseJsonTop (cs : List Char) : Option Json :=
  match parseValue (cs.length + 1) cs with
  | some (j, rest) => if skipWS rest = [] then some j else none
  | none => none

/- ========== _clean_json_text / _extract_json_object (json_validator.py) ===== -/

/-- `_clean_json_text(text)` (json_validator.py lines 14-40): drop every
line whose stripped form starts with a code-fence marker, join and trim,
then strip a leading case-insensitive `json` label. -/
def clean_json_text (text : List Char) : List Char :=
  let kept := (pySplitlines text).filter
    (fun l => !(("```".toList).isPrefixOf (stripPy l)))
  let cleaned := stripPy (joinNL kept)
  if ("json".toList).isPrefixOf (cleaned.map Char.toLower) then
    stripPy (cleaned.drop 4)
  else cleaned

/-- `_extract_json_object(text)` (json_validator.py lines 43-78): clean,
try a direct parse, then fall back to the first-`\x7b`-to-last-`\x7d`
substring. -/
def extract_json_object (text : List Char) : Except VErr Json :=
  let cleaned := clean_json_text text
  if cleaned = [] then .error .emptyAfterClean
  else
    match parseJsonTop cleaned with
    | some j => .ok j
    | none =>
      match cleaned.findIdx? (fun c => c = '{'),
            (cleaned.reverse.findIdx? (fun c => c = '}')).map
              (fun i => cleaned.length - 1 - i) with
      | some s, some e =>
        if e ≤ s then .error .noJsonFound
        else
          match parseJsonTop ((cleaned.drop s).take (e - s + 1)) with
          | some j => .ok j
          | none => .error .parseFailed
      | _, _ => .error .noJsonFound

/-- `validate_json_correction(raw_text, max_line)` (json_validator.py
lines 81-179) end to end: emptiness check, extraction, then the schema and
safety checks of `validateParsed`.  A parse result that is not an object
cannot pass the required-keys check and is mapped to that failure. -/
def validate_json_correction (rawText : List Char) (maxLine : Option Int) :
    Except VErr JsonFields :=
  if stripPy rawText = [] then .error .emptyResponse
  else
    match extract_json_object rawText with
    | .error e => .error e
    | .ok (.obj fields) => validateParsed fields maxLine
    | .ok _ => .error .missingKeys

/- ===================== helper lemmas ===================== -/

theorem takeWhile_append_of_head (pre rest : List Char)
    (hpre : ∀ c ∈ pre, isSpTab c = true)
    (hrest : ∀ c, rest.head? = some c → isSpTab c = false) :
    (pre ++ rest).takeWhile isSpTab = pre := by
  induction pre with
  | nil =>
    simp only [List.nil_append]
    cases rest with
    | nil => simp
    | cons c t => simp [List.takeWhile_cons, hrest c rfl]
  | cons c t ih =>
    have hc := hpre c (by simp)
    simp only [List.cons_append, List.takeWhile_cons, hc, if_true]
    rw [ih (fun x hx => hpre x (by simp [hx]))]

/-- The leading space/tab run of a line built by `apply_indent` +
newline-termination equals the reference line's leading run. -/
theorem takeWhile_apply_indent (ref nc : List Char) :
    (ensureNL (apply_indent (some ref) nc)).takeWhile isSpTab =
      ref.takeWhile isSpTab := by
  have hpre : ∀ c ∈ ref.takeWhile isSpTab, isSpTab c = true :=
    fun c hc => List.mem_takeWhile_imp hc
  have hdrop : ∀ c, (nc.dropWhile isSpTab).head? = some c → isSpTab c = false := by
    intro c hc
    have := List.head?_dropWhile_not isSpTab nc
    rw [hc] at this
    exact this
  unfold ensureNL apply_indent
  by_cases h : endsWithNL (ref.takeWhile isSpTab ++ nc.dropWhile isSpTab)
  · rw [if_pos h]
    exact takeWhile_append_of_head _ _ hpre hdrop
  · rw [if_neg h, List.append_assoc]
    apply takeWhile_append_of_head _ _ hpre
    intro c hc
    cases hd : nc.dropWhile isSpTab with
    | nil =>
      rw [hd] at hc
      simp at hc
      subst hc
      decide
    | cons c0 t =>
      rw [hd] at hc
      simp at hc
      subst hc
      have := hdrop c0
      rw [hd] at this
      exact this rfl

theorem getD_set_self (l : List (List Char)) (i : Nat) (v : List Char)
    (h : i < l.length) : (l.set i v).getD i [] = v := by
  simp [List.getD_eq_getElem?_getD, List.getElem?_set_self h]

theorem getD_insertIdx_self (l : List (List Char)) (i : Nat) (v : List Char)
    (h : i ≤ l.length) : (l.insertIdx i v).getD i [] = v := by
  have h2 : i < (List.insertIdx i v l).length := by
    rw [List.length_insertIdx i l h]
    omega
  rw [List.getD_eq_getElem?_getD, List.getElem?_eq_getElem h2,
    List.getElem_insertIdx_self l v i h]
  rfl

/-- A candidate directive with all four keys, for concrete instances. -/
def mkCandidate (f : List Char) (n : Int) (a : List Char) (ncv : Json) :
    JsonFields :=
  JsonFields.cons "file".toList (Json.str f)
    (JsonFields.cons "line".toList (Json.num n)
      (JsonFields.cons "action".toList (Json.str a)
        (JsonFields.cons "new_code".toList ncv JsonFields.nil)))

/-- The canonical `action = none` directive
`(file = null, line = null, new_code = null)`. -/
def noneCandidate : JsonFields :=
  JsonFields.cons "file".toList Json.null
    (JsonFields.cons "line".toList Json.null
      (JsonFields.cons "action".toList (Json.str "none".toList)
        (JsonFields.cons "new_code".toList Json.null JsonFields.nil)))

/-- Unfolding of `apply_patch_core` for the `replace` action. -/
theorem apply_patch_core_replace (n : Int) (ncv : Json)
    (lines : List (List Char)) :
    apply_patch_core (Json.str "replace".toList) n ncv lines =
      (if n - 1 < 0 ∨ n - 1 > (lines.length : Int) then .error .indexErr
       else if (n - 1).toNat ≥ lines.length then .error .replaceIndexErr
       else
         match ncv with
         | .str newCode =>
           .ok (lines.set (n - 1).toNat
             (ensureNL (apply_indent (some (lines.getD (n - 1).toNat []))
               newCode)))
         | _ => .error .typeErr) := rfl

/-- Unfolding of `apply_patch_core` for the `insert` action. -/
theorem apply_patch_core_insert (n : Int) (ncv : Json)
    (lines : List (List Char)) :
    apply_patch_core (Json.str "insert".toList) n ncv lines =
      (if n - 1 < 0 ∨ n - 1 > (lines.length : Int) then .error .indexErr
       else
         match ncv with
         | .str newCode =>
           .ok (lines.insertIdx (n - 1).toNat
             (ensureNL (apply_indent (some (insertRefLine lines (n - 1)))
               newCode)))
         | _ => .error .typeErr) := rfl

/-- Unfolding of `apply_patch_core` for the `delete` action. -/
theorem apply_patch_core_delete (n : Int) (ncv : Json)
    (lines : List (List Char)) :
    apply_patch_core (Json.str "delete".toList) n ncv lines =
      (if n - 1 < 0 ∨ n - 1 > (lines.length : Int) then .error .indexErr
       else if (n - 1).toNat ≥ lines.length then .error .deleteIndexErr
       else .ok (lines.eraseIdx (n - 1).toNat)) := rfl

theorem containsTok_of_infix {nd hs : List Char} (h : nd <:+: hs) :
    containsTok nd hs = true := by
  induction hs with
  | nil =>
    rw [List.infix_nil] at h
    subst h
    rfl
  | cons c t ih =>
    rw [List.infix_cons_iff] at h
    unfold containsTok
    rcases h with h | h
    · rw [ List.isPrefixOf_iff_prefix.mpr h]
      rfl
    · rw [ih h, Bool.or_true]

/-- Unfolding of `validateParsed` once the lookups are known and the action
is one of the three editing actions. -/
theorem validateParsed_eq (parsed : JsonFields) (maxLine : Option Int)
    (f : List Char) (n : Int) (a : List Char) (ncv : Json)
    (hf : jlookup parsed "file".toList = some (Json.str f))
    (hl : jlookup parsed "line".toList = some (Json.num n))
    (ha : jlookup parsed "action".toList = some (Json.str a))
    (hnc : jlookup parsed "new_code".toList = some ncv)
    (henum : a = "replace".toList ∨ a = "insert".toList ∨ a = "delete".toList) :
    validateParsed parsed maxLine =
      (if stripPy f = [] then .error .badFile
       else if n ≤ 0 then .error .badLine
       else
         match maxLine with
         | some m =>
           if n > m then .error .lineTooBig
           else validateActionFields parsed a ncv
         | none => validateActionFields parsed a ncv) := by
  unfold validateParsed
  rw [hf, hl, ha, hnc]
  rcases henum with h | h | h <;> subst h <;> rfl

/-- Unfolding of `validateActionFields` for `replace`/`insert` and a string
payload. -/
theorem validateActionFields_repl_ins (parsed : JsonFields) (a nc : List Char)
    (ha : a = "replace".toList ∨ a = "insert".toList) :
    validateActionFields parsed a (Json.str nc) =
      (if stripPy nc = [] then .error .blankNewCode
       else if dangerous_tokens.any
           (fun tok => containsTok tok (nc.map Char.toLower)) then
         .error .dangerousNewCode
       else .ok parsed) := by
  rcases ha with h | h <;> subst h <;> rfl

/- ===================== claims ===================== -/

/-- C7: a correction with `action = none` performs no file access and
creates or overwrites no backup: `apply_patch` returns the sentinel
"nothing applied" result with the file system unchanged, before resolving
or touching any path, and validation short-circuits, returning the
candidate at the `none` branch. -/
theorem c7_none_short_circuit (projectRoot : List Char) (c : JsonFields)
    (fs : FS) (maxLine : Option Int)
    (ha : jlookup c "action".toList = some (Json.str "none".toList)) :
    apply_patch projectRoot c fs = (fs, .ok noneMsg) ∧
    (jlookup c "file".toList = some Json.null →
     jlookup c "line".toList = some Json.null →
     jlookup c "new_code".toList = some Json.null →
     validateParsed c maxLine = .ok c) := by
  constructor
  · unfold apply_patch
    rw [ha]
    simp
  · intro hf hl hn
    unfold validateParsed
    rw [hf, hl, ha, hn]
    rfl

theorem c7_witness :
    apply_patch [] noneCandidate (fun _ => none) =
      ((fun _ => none : FS), .ok noneMsg) ∧
    validateParsed noneCandidate none = .ok noneCandidate := by
  have h := c7_none_short_circuit [] noneCandidate (fun _ => none) none (by rfl)
  exact ⟨h.1, h.2 rfl rfl rfl⟩

/-- C5: a successful `replace` leaves the file's line sequence the same
length, a successful `insert` lengthens it by exactly one, and a
successful `delete` shortens it by exactly one. -/
theorem c5_line_count :
    (∀ (n : Int) (ncv : Json) (lines lines' : List (List Char)),
      apply_patch_core (Json.str "replace".toList) n ncv lines = .ok lines' →
      lines'.length = lines.length) ∧
    (∀ (n : Int) (ncv : Json) (lines lines' : List (List Char)),
      apply_patch_core (Json.str "insert".toList) n ncv lines = .ok lines' →
      lines'.length = lines.length + 1) ∧
    (∀ (n : Int) (ncv : Json) (lines lines' : List (List Char)),
      apply_patch_core (Json.str "delete".toList) n ncv lines = .ok lines' →
      lines'.length + 1 = lines.length) := by
  refine ⟨?_, ?_, ?_⟩
  · intro n ncv lines lines' h
    rw [apply_patch_core_replace] at h
    split at h
    · exact absurd h (by simp)
    · split at h
      · exact absurd h (by simp)
      · cases ncv with
        | str newCode =>
          replace h := Except.ok.inj h
          rw [← h]
          exact List.length_set ..
        | null => exact absurd h (by simp)
        | bool b => exact absurd h (by simp)
        | num m => exact absurd h (by simp)
        | arr a2 => exact absurd h (by simp)
        | obj o => exact absurd h (by simp)
  · intro n ncv lines lines' h
    rw [apply_patch_core_insert] at h
    split at h
    · exact absurd h (by simp)
    · next hrange =>
      have hle : (n - 1).toNat ≤ lines.length := by omega
      cases ncv with
      | str newCode =>
        replace h := Except.ok.inj h
        rw [← h]
        exact List.length_insertIdx _ _ hle
      | null => exact absurd h (by simp)
      | bool b => exact absurd h (by simp)
      | num m => exact absurd h (by simp)
      | arr a2 => exact absurd h (by simp)
      | obj o => exact absurd h (by simp)
  · intro n ncv lines lines' h
    rw [apply_patch_core_delete] at h
    split at h
    · exact absurd h (by simp)
    · split at h
      · exact absurd h (by simp)
      · next hlt =>
        replace h := Except.ok.inj h
        rw [← h, List.length_eraseIdx]
        rw [if_pos (by omega)]
        omega

theorem c5_witness :
    ([['x', '\n'], ['b', '\n']] : List (List Char)).length =
      ([['a', '\n'], ['b', '\n']] : List (List Char)).length ∧
    ([['a', '\n'], ['b', '\n'], ['c', '\n']] : List (List Char)).length =
      ([['a', '\n'], ['b', '\n']] : List (List Char)).length + 1 ∧
    ([] : List (List Char)).length + 1 =
      ([['a', '\n']] : List (List Char)).length :=
  ⟨c5_line_count.1 1 (Json.str ['x']) [['a', '\n'], ['b', '\n']]
      [['x', '\n'], ['b', '\n']] (by rfl),
   c5_line_count.2.1 3 (Json.str ['c']) [['a', '\n'], ['b', '\n']]
      [['a', '\n'], ['b', '\n'], ['c', '\n']] (by rfl),
   c5_line_count.2.2 1 Json.null [['a', '\n']] [] (by rfl)⟩

/-- C6: after a successful `replace` or `insert`, the leading space/tab run
of the affected line equals the leading space/tab run of the reference line
used for indentation (for `replace` the original line at the index, for
`insert` the line selected by `insertRefLine`), regardless of any leading
whitespace in `new_code`. -/
theorem c6_indentation :
    (∀ (n : Int) (nc : List Char) (lines lines' : List (List Char)),
      apply_patch_core (Json.str "replace".toList) n (Json.str nc) lines =
        .ok lines' →
      (lines'.getD (n - 1).toNat []).takeWhile isSpTab =
        ((lines.getD (n - 1).toNat []).takeWhile isSpTab)) ∧
    (∀ (n : Int) (nc : List Char) (lines lines' : List (List Char)),
      apply_patch_core (Json.str "insert".toList) n (Json.str nc) lines =
        .ok lines' →
      (lines'.getD (n - 1).toNat []).takeWhile isSpTab =
        ((insertRefLine lines (n - 1)).takeWhile isSpTab)) := by
  constructor
  · intro n nc lines lines' h
    rw [apply_patch_core_replace] at h
    split at h
    · exact absurd h (by simp)
    · split at h
      · exact absurd h (by simp)
      · next hrange hge =>
        replace h := Except.ok.inj h
        rw [← h, getD_set_self _ _ _ (by omega)]
        exact takeWhile_apply_indent _ _
  · intro n nc lines lines' h
    rw [apply_patch_core_insert] at h
    split at h
    · exact absurd h (by simp)
    · next hrange =>
      replace h := Except.ok.inj h
      rw [← h, getD_insertIdx_self _ _ _ (by omega)]
      exact takeWhile_apply_indent _ _

theorem c6_witness :
    (([['\t', '\t', 'x', '\n'], ['b', '\n']] : List (List Char)).getD 0 []).takeWhile isSpTab =
      (([['\t', '\t', 'a', '\n'], ['b', '\n']] : List (List Char)).getD 0 []).takeWhile isSpTab ∧
    (([[' ', ' ', 'c', '\n'], [' ', ' ', 'a', '\n'], ['b', '\n']] : List (List Char)).getD 0 []).takeWhile isSpTab =
      (insertRefLine [[' ', ' ', 'a', '\n'], ['b', '\n']] 0).takeWhile isSpTab :=
  ⟨c6_indentation.1 1 [' ', 'x'] [['\t', '\t', 'a', '\n'], ['b', '\n']]
      [['\t', '\t', 'x', '\n'], ['b', '\n']] (by rfl),
   c6_indentation.2 1 ['c'] [[' ', ' ', 'a', '\n'], ['b', '\n']]
      [[' ', ' ', 'c', '\n'], [' ', ' ', 'a', '\n'], ['b', '\n']] (by rfl)⟩

/-- C9: a `replace` or `insert` candidate whose `new_code` contains any
token of the safety denylist in any letter-casing (witnessed by a substring
`s` whose lowercasing is the token) is rejected by validation with the
safety error, provided the candidate passes the earlier schema checks. -/
theorem c9_denylist_case_insensitive (parsed : JsonFields)
    (maxLine : Option Int) (f : List Char) (n : Int) (a nc s tok : List Char)
    (hf : jlookup parsed "file".toList = some (Json.str f))
    (hfne : stripPy f ≠ [])
    (hl : jlookup parsed "line".toList = some (Json.num n))
    (hn : 0 < n)
    (hmax : ∀ m, maxLine = some m → n ≤ m)
    (ha : jlookup parsed "action".toList = some (Json.str a))
    (hari : a = "replace".toList ∨ a = "insert".toList)
    (hnc : jlookup parsed "new_code".toList = some (Json.str nc))
    (hncne : stripPy nc ≠ [])
    (hsub : s <:+: nc)
    (hlow : s.map Char.toLower = tok)
    (htok : tok ∈ dangerous_tokens) :
    validateParsed parsed maxLine = .error .dangerousNewCode := by
  rw [validateParsed_eq parsed maxLine f n a (Json.str nc) hf hl ha hnc
      (by rcases hari with h | h <;> simp [h])]
  rw [if_neg hfne, if_neg (by omega)]
  have hdanger : dangerous_tokens.any
      (fun tok => containsTok tok (nc.map Char.toLower)) = true := by
    refine List.any_eq_true.mpr ⟨tok, htok, ?_⟩
    rw [← hlow]
    exact containsTok_of_infix (List.IsInfix.map Char.toLower hsub)
  cases maxLine with
  | none =>
    dsimp only
    rw [validateActionFields_repl_ins parsed a nc hari, if_neg hncne,
      if_pos hdanger]
  | some m =>
    dsimp only
    rw [if_neg (by have := hmax m rfl; omega)]
    rw [validateActionFields_repl_ins parsed a nc hari, if_neg hncne,
      if_pos hdanger]

theorem c9_witness :
    validateParsed
      (mkCandidate "x.py".toList 2 "replace".toList
        (Json.str "x = sUbProCess.run(y)".toList)) (some 5) =
      .error .dangerousNewCode :=
  c9_denylist_case_insensitive _ (some 5) "x.py".toList 2 "replace".toList
    "x = sUbProCess.run(y)".toList "sUbProCess".toList "subprocess".toList
    (by rfl) (by decide) (by rfl) (by decide)
    (fun m hm => by cases Option.some.inj hm; decide)
    (by rfl) (Or.inl rfl) (by rfl) (by decide)
    (by decide) (by decide) (by decide)

/-- C10: the safety screen is a plain substring test on the lowercased
payload: whenever the lowercased `new_code` of a `replace`/`insert`
candidate decomposes as `pre ++ token ++ post` for a denylisted token —
with no token-boundary requirement, so also inside a longer identifier
such as `reopen(` containing `open(` — validation rejects it with the
safety error, provided the candidate passes the earlier schema checks. -/
theorem c10_substring_screen (parsed : JsonFields)
    (maxLine : Option Int) (f : List Char) (n : Int)
    (a nc pre post tok : List Char)
    (hf : jlookup parsed "file".toList = some (Json.str f))
    (hfne : stripPy f ≠ [])
    (hl : jlookup parsed "line".toList = some (Json.num n))
    (hn : 0 < n)
    (hmax : ∀ m, maxLine = some m → n ≤ m)
    (ha : jlookup parsed "action".toList = some (Json.str a))
    (hari : a = "replace".toList ∨ a = "insert".toList)
    (hnc : jlookup parsed "new_code".toList = some (Json.str nc))
    (hncne : stripPy nc ≠ [])
    (hdecomp : nc.map Char.toLower = pre ++ tok ++ post)
    (htok : tok ∈ dangerous_tokens) :
    validateParsed parsed maxLine = .error .dangerousNewCode := by
  rw [validateParsed_eq parsed maxLine f n a (Json.str nc) hf hl ha hnc
      (by rcases hari with h | h <;> simp [h])]
  rw [if_neg hfne, if_neg (by omega)]
  have hdanger : dangerous_tokens.any
      (fun tok => containsTok tok (nc.map Char.toLower)) = true := by
    refine List.any_eq_true.mpr ⟨tok, htok, ?_⟩
    apply containsTok_of_infix
    rw [hdecomp]
    exact ⟨pre, post, by simp⟩
  cases maxLine with
  | none =>
    dsimp only
    rw [validateActionFields_repl_ins parsed a nc hari, if_neg hncne,
      if_pos hdanger]
  | some m =>
    dsimp only
    rw [if_neg (by have := hmax m rfl; omega)]
    rw [validateActionFields_repl_ins parsed a nc hari, if_neg hncne,
      if_pos hdanger]

theorem c10_witness :
    validateParsed
      (mkCandidate "x.py".toList 1 "insert".toList
        (Json.str "result = reopen(path)".toList)) none =
      .error .dangerousNewCode :=
  c10_substring_screen _ none "x.py".toList 1 "insert".toList
    "result = reopen(path)".toList "result = re".toList "path)".toList
    "open(".toList
    (by rfl) (by decide) (by rfl) (by decide)
    (fun m hm => by cases hm)
    (by rfl) (Or.inr rfl) (by rfl) (by decide)
    (by decide) (by decide)

theorem validateActionFields_ok_eq (parsed : JsonFields) (a : List Char)
    (ncv : Json) (r : JsonFields)
    (h : validateActionFields parsed a ncv = .ok r) : r = parsed := by
  unfold validateActionFields at h
  dsimp only at h
  repeat' split at h
  all_goals
    first
    | exact (Except.ok.inj h).symm
    | simp at h

/-- A multi-line `new_code` payload (it embeds a line break). -/
def multilineCandidate : JsonFields :=
  mkCandidate "x.py".toList 1 "replace".toList
    (Json.str ('a' :: '\n' :: ['b']))

/-- C4 counterexample: validation accepts a `replace` candidate whose
`new_code` payload embeds a line break and returns it as-is, so the claim
that every returned Correction has a single-line payload is false. -/
theorem c4_counterexample :
    validateParsed multilineCandidate none = .ok multilineCandidate ∧
    jlookup multilineCandidate "new_code".toList =
      some (Json.str ('a' :: '\n' :: ['b'])) ∧
    '\n' ∈ ('a' :: '\n' :: ['b']) :=
  ⟨by rfl, by rfl, by decide⟩

/-- C4 (amended): validation returns the candidate object unchanged — it
performs no normalization of content, only acceptance or rejection — but it
does not enforce the single-line property: a `new_code` payload may contain
embedded line breaks and still validate (see the counterexample). -/
theorem c4_returns_unchanged (parsed : JsonFields) (maxLine : Option Int)
    (r : JsonFields) (h : validateParsed parsed maxLine = .ok r) :
    r = parsed := by
  unfold validateParsed at h
  repeat' split at h
  all_goals
    first
    | exact (Except.ok.inj h).symm
    | exact validateActionFields_ok_eq _ _ _ _ h
    | simp at h

theorem c4_witness : multilineCandidate = multilineCandidate :=
  c4_returns_unchanged multilineCandidate none multilineCandidate (by rfl)

/-- C1 counterexample: with `maxLine = 1`, an `insert` candidate with
`line = 2 = maxLine + 1` (the append-at-end position) is rejected by
validation with the bound error — the claim that validation accepts
`line = maxLine + 1` for `insert` is false. -/
theorem c1_counterexample :
    validateParsed
      (mkCandidate "x.py".toList 2 "insert".toList (Json.str ['b']))
      (some 1) = .error .lineTooBig := by rfl

/-- C1 (amended): when a maximum line count `m` is known, validation
accepts `1 ≤ line ≤ m` uniformly for `replace`, `insert` and `delete`
(whenever the action-specific payload checks pass), and rejects
`line = m + 1` for every action — including `insert`, for which the
append-at-end position is accepted only at apply time, where
`apply_patch_core` admits `line = lineCount + 1`. -/
theorem c1_line_bounds :
    (∀ (parsed : JsonFields) (m : Int) (f : List Char) (n : Int)
        (a : List Char) (ncv : Json),
      jlookup parsed "file".toList = some (Json.str f) → stripPy f ≠ [] →
      jlookup parsed "line".toList = some (Json.num n) →
      jlookup parsed "action".toList = some (Json.str a) →
      jlookup parsed "new_code".toList = some ncv →
      (a = "replace".toList ∨ a = "insert".toList ∨ a = "delete".toList) →
      validateActionFields parsed a ncv = .ok parsed →
      1 ≤ n → n ≤ m →
      validateParsed parsed (some m) = .ok parsed) ∧
    (∀ (parsed : JsonFields) (m : Int) (f : List Char) (n : Int)
        (a : List Char) (ncv : Json),
      jlookup parsed "file".toList = some (Json.str f) → stripPy f ≠ [] →
      jlookup parsed "line".toList = some (Json.num n) →
      jlookup parsed "action".toList = some (Json.str a) →
      jlookup parsed "new_code".toList = some ncv →
      (a = "replace".toList ∨ a = "insert".toList ∨ a = "delete".toList) →
      1 ≤ n → n = m + 1 →
      validateParsed parsed (some m) = .error .lineTooBig) ∧
    (∀ (nc : List Char) (lines : List (List Char)),
      ∃ lines',
        apply_patch_core (Json.str "insert".toList)
          ((lines.length : Int) + 1) (Json.str nc) lines = .ok lines') := by
  refine ⟨?_, ?_, ?_⟩
  · intro parsed m f n a ncv hf hfne hl ha hnc henum haf h1 h2
    rw [validateParsed_eq parsed (some m) f n a ncv hf hl ha hnc henum]
    rw [if_neg hfne, if_neg (by omega)]
    dsimp only
    rw [if_neg (by omega)]
    exact haf
  · intro parsed m f n a ncv hf hfne hl ha hnc henum h1 h2
    rw [validateParsed_eq parsed (some m) f n a ncv hf hl ha hnc henum]
    rw [if_neg hfne, if_neg (by omega)]
    dsimp only
    rw [if_pos (by omega)]
  · intro nc lines
    refine ⟨lines.insertIdx ((lines.length : Int) + 1 - 1).toNat
      (ensureNL (apply_indent
        (some (insertRefLine lines ((lines.length : Int) + 1 - 1))) nc)), ?_⟩
    rw [apply_patch_core_insert]
    rw [if_neg (by omega)]

theorem c1_witness :
    validateParsed
      (mkCandidate "x.py".toList 3 "replace".toList (Json.str "y = 1".toList))
      (some 3) =
      .ok (mkCandidate "x.py".toList 3 "replace".toList
        (Json.str "y = 1".toList)) ∧
    validateParsed
      (mkCandidate "x.py".toList 4 "delete".toList Json.null) (some 3) =
      .error .lineTooBig ∧
    (∃ lines',
      apply_patch_core (Json.str "insert".toList)
        ((([['a', '\n']] : List (List Char)).length : Int) + 1)
        (Json.str ['b']) [['a', '\n']] = .ok lines') :=
  ⟨c1_line_bounds.1 _ 3 "x.py".toList 3 "replace".toList
      (Json.str "y = 1".toList) (by rfl) (by decide) (by rfl) (by rfl)
      (by rfl) (Or.inl rfl) (by rfl) (by decide) (by decide),
   c1_line_bounds.2.1 _ 3 "x.py".toList 4 "delete".toList Json.null
      (by rfl) (by decide) (by rfl) (by rfl) (by rfl)
      (Or.inr (Or.inr rfl)) (by decide) (by decide),
   c1_line_bounds.2.2 ['b'] [['a', '\n']]⟩

theorem backupPath_ne (p : List Char) : backupPath p ≠ p := by
  intro h
  have := congrArg List.length h
  simp [backupPath] at this

theorem setFile_self (fs : FS) (p v : List Char) : setFile fs p v p = some v := by
  unfold setFile
  rw [if_pos rfl]

theorem setFile_other (fs : FS) (p v q : List Char) (h : q ≠ p) :
    setFile fs p v q = fs q := by
  unfold setFile
  rw [if_neg h]

/-- C2 counterexample: applying a `replace` whose line is out of range does
fail with a range error and leaves the target file untouched, but the
backup file IS created by the failing apply (it did not exist before), so
the claim that the backup is neither created nor overwritten is false. -/
theorem c2_counterexample :
    (fun p => if p = targetPath "r".toList "z.py".toList
        then some ('a' :: ['\n']) else none : FS)
      (backupPath (targetPath "r".toList "z.py".toList)) = none ∧
    (apply_patch "r".toList
        (mkCandidate "z.py".toList 3 "replace".toList (Json.str ['x']))
        (fun p => if p = targetPath "r".toList "z.py".toList
          then some ('a' :: ['\n']) else none)).1
      (backupPath (targetPath "r".toList "z.py".toList)) =
      some ('a' :: ['\n']) ∧
    (apply_patch "r".toList
        (mkCandidate "z.py".toList 3 "replace".toList (Json.str ['x']))
        (fun p => if p = targetPath "r".toList "z.py".toList
          then some ('a' :: ['\n']) else none)).2 = .error .indexErr :=
  ⟨by decide, by rfl, by rfl⟩

/-- C2 (amended): a `replace` whose line is outside the target file's
bounds at apply time fails with a range error before any mutation of the
target file — the file's content is untouched — but the backup IS created
(overwritten) by the failing apply, because the snapshot is taken before
the bounds check. -/
theorem c2_out_of_range_replace (root f : List Char) (c : JsonFields)
    (fs : FS) (n : Int) (ncv : Json) (content : List Char)
    (ha : jlookup c "action".toList = some (Json.str "replace".toList))
    (hf : jlookup c "file".toList = some (Json.str f))
    (hl : jlookup c "line".toList = some (Json.num n))
    (hnc : jlookup c "new_code".toList = some ncv)
    (hfs : fs (targetPath root f) = some content)
    (hrange : n - 1 < 0 ∨ n - 1 ≥ ((splitLinesKE content).length : Int)) :
    ((apply_patch root c fs).2 = .error .indexErr ∨
      (apply_patch root c fs).2 = .error .replaceIndexErr) ∧
    (apply_patch root c fs).1 (targetPath root f) = some content ∧
    (apply_patch root c fs).1 (backupPath (targetPath root f)) =
      some content := by
  unfold apply_patch
  rw [ha]
  dsimp only
  rw [if_neg (by decide), hf, hl, hnc]
  dsimp only
  rw [hfs]
  dsimp only
  rw [apply_patch_core_replace]
  by_cases h1 : n - 1 < 0 ∨ n - 1 > ((splitLinesKE content).length : Int)
  · rw [if_pos h1]
    dsimp only
    refine ⟨Or.inl rfl, ?_, ?_⟩
    · rw [setFile_other _ _ _ _ (fun h => backupPath_ne _ h.symm)]
      exact hfs
    · exact setFile_self _ _ _
  · rw [if_neg h1, if_pos (by omega)]
    dsimp only
    refine ⟨Or.inr rfl, ?_, ?_⟩
    · rw [setFile_other _ _ _ _ (fun h => backupPath_ne _ h.symm)]
      exact hfs
    · exact setFile_self _ _ _

theorem c2_witness :
    ((apply_patch "r".toList
        (mkCandidate "z.py".toList 3 "replace".toList (Json.str ['x']))
        (fun p => if p = targetPath "r".toList "z.py".toList
          then some ('a' :: ['\n']) else none)).2 = .error .indexErr ∨
     (apply_patch "r".toList
        (mkCandidate "z.py".toList 3 "replace".toList (Json.str ['x']))
        (fun p => if p = targetPath "r".toList "z.py".toList
          then some ('a' :: ['\n']) else none)).2 =
        .error .replaceIndexErr) ∧
    (apply_patch "r".toList
        (mkCandidate "z.py".toList 3 "replace".toList (Json.str ['x']))
        (fun p => if p = targetPath "r".toList "z.py".toList
          then some ('a' :: ['\n']) else none)).1
      (targetPath "r".toList "z.py".toList) = some ('a' :: ['\n']) ∧
    (apply_patch "r".toList
        (mkCandidate "z.py".toList 3 "replace".toList (Json.str ['x']))
        (fun p => if p = targetPath "r".toList "z.py".toList
          then some ('a' :: ['\n']) else none)).1
      (backupPath (targetPath "r".toList "z.py".toList)) =
      some ('a' :: ['\n']) :=
  c2_out_of_range_replace "r".toList "z.py".toList _ _ 3 (Json.str ['x'])
    ('a' :: ['\n']) (by rfl) (by rfl) (by rfl) (by rfl) (by rfl) (by decide)

/-- C3: for every valid non-`none` correction applied successfully,
restoring the target from its backup reproduces the exact content the
target had immediately before the apply. -/
theorem c3_restore_roundtrip (root f : List Char) (c : JsonFields)
    (fs fs' : FS) (a ret : List Char)
    (ha : jlookup c "action".toList = some (Json.str a))
    (hna : a ≠ "none".toList)
    (hf : jlookup c "file".toList = some (Json.str f))
    (happly : apply_patch root c fs = (fs', .ok ret)) :
    (restore_backup root f fs').2 = .ok (targetPath root f) ∧
    (restore_backup root f fs').1 (targetPath root f) =
      fs (targetPath root f) := by
  unfold apply_patch at happly
  rw [ha] at happly
  dsimp only at happly
  rw [if_neg (fun hcontra => hna (Json.str.inj hcontra)), hf] at happly
  cases hl : jlookup c "line".toList with
  | none =>
    rw [hl] at happly
    simp at happly
  | some lv =>
    rw [hl] at happly
    cases hn : jlookup c "new_code".toList with
    | none =>
      rw [hn] at happly
      simp at happly
    | some ncv =>
      rw [hn] at happly
      dsimp only at happly
      cases hc : fs (targetPath root f) with
      | none =>
        rw [hc] at happly
        simp at happly
      | some content =>
        rw [hc] at happly
        dsimp only at happly
        cases lv with
        | num n =>
          dsimp only at happly
          cases hcore : apply_patch_core (Json.str a) n ncv
              (splitLinesKE content) with
          | error e =>
            rw [hcore] at happly
            simp at happly
          | ok newLines =>
            rw [hcore] at happly
            dsimp only at happly
            injection happly with h1 h2
            subst h1
            unfold restore_backup
            dsimp only
            rw [setFile_other _ _ _ _ (backupPath_ne _), setFile_self]
            dsimp only
            exact ⟨rfl, by rw [setFile_self]⟩
        | null => simp at happly
        | bool b => simp at happly
        | str s => simp at happly
        | arr a2 => simp at happly
        | obj o => simp at happly

/-- A one-file file system for the round-trip witness. -/
def fs3 : FS :=
  fun p => if p = targetPath "r".toList "x.py".toList
    then some ('a' :: ['\n']) else none

/-- A concrete valid `replace` directive for the round-trip witness. -/
def cand3 : JsonFields :=
  mkCandidate "x.py".toList 1 "replace".toList (Json.str ['z'])

theorem c3_witness :
    (restore_backup "r".toList "x.py".toList
        (apply_patch "r".toList cand3 fs3).1).2 =
      .ok (targetPath "r".toList "x.py".toList) ∧
    (restore_backup "r".toList "x.py".toList
        (apply_patch "r".toList cand3 fs3).1).1
      (targetPath "r".toList "x.py".toList) =
      fs3 (targetPath "r".toList "x.py".toList) :=
  c3_restore_roundtrip "r".toList "x.py".toList cand3 fs3
    (apply_patch "r".toList cand3 fs3).1 "replace".toList
    (targetPath "r".toList "x.py".toList) (by rfl) (by decide) (by rfl)
    (by rfl)

/- ============ C8 groundwork: characters, whitespace, digits ============ -/

/-- Line-boundary characters (the ones `pySplitlines` splits on). -/
def isNLCR (c : Char) : Bool := c = '\n' || c = '\r'

theorem skipWS_of_head (c : Char) (cs : List Char) (h : isJsonWS c = false) :
    skipWS (c :: cs) = c :: cs := by
  simp [skipWS, List.dropWhile_cons, h]

theorem skipWS_cons_ws (c : Char) (cs : List Char) (h : isJsonWS c = true) :
    skipWS (c :: cs) = skipWS cs := by
  simp [skipWS, List.dropWhile_cons, h]

theorem skipWS_spaces_append (pre cs : List Char) (h : ∀ c ∈ pre, c = ' ') :
    skipWS (pre ++ cs) = skipWS cs := by
  induction pre with
  | nil => rfl
  | cons p t ih =>
    have hp := h p (by simp)
    subst hp
    rw [List.cons_append, skipWS_cons_ws ' ' _ (by decide)]
    exact ih (fun c hc => h c (by simp [hc]))

theorem char_ne_of_digit (c d : Char) (h : c.isDigit = true)
    (hd : d.isDigit = false) : c ≠ d := by
  intro he
  subst he
  rw [h] at hd
  exact absurd hd (by simp)

theorem isJsonWS_of_digit (c : Char) (h : c.isDigit = true) :
    isJsonWS c = false := by
  unfold isJsonWS
  have h1 : c ≠ ' ' := char_ne_of_digit c ' ' h (by decide)
  have h2 : c ≠ '\t' := char_ne_of_digit c '\t' h (by decide)
  have h3 : c ≠ '\n' := char_ne_of_digit c '\n' h (by decide)
  have h4 : c ≠ '\r' := char_ne_of_digit c '\r' h (by decide)
  simp [h1, h2, h3, h4]

theorem digitChar_isDigit (d : Nat) (h : d < 10) :
    (Nat.digitChar d).isDigit = true := by
  interval_cases d <;> decide

theorem digitVal_digitChar (d : Nat) (h : d < 10) :
    digitVal (Nat.digitChar d) = d := by
  interval_cases d <;> decide

theorem natToDigitsRev_ne_nil (n : Nat) : natToDigitsRev n ≠ [] := by
  unfold natToDigitsRev
  split <;> simp

theorem natToDigitsRev_digits (n : Nat) :
    ∀ c ∈ natToDigitsRev n, c.isDigit = true := by
  induction n using Nat.strong_induction_on with
  | _ n ih =>
    intro c hc
    unfold natToDigitsRev at hc
    split at hc
    · next h =>
      simp at hc
      subst hc
      exact digitChar_isDigit n h
    · next h =>
      simp at hc
      rcases hc with hc | hc
      · subst hc
        exact digitChar_isDigit _ (Nat.mod_lt _ (by omega))
      · exact ih (n / 10) (Nat.div_lt_self (by omega) (by omega)) c hc

theorem printNat_ne_nil (n : Nat) : printNat n ≠ [] := by
  unfold printNat
  simp [natToDigitsRev_ne_nil]

theorem printNat_digits (n : Nat) : ∀ c ∈ printNat n, c.isDigit = true :=
  fun c hc => natToDigitsRev_digits n c (List.mem_reverse.mp hc)

theorem parseDigitsAux_stop (cs : List Char) (acc : Nat)
    (h : ∀ c, cs.head? = some c → c.isDigit = false) :
    parseDigitsAux cs acc = (acc, cs) := by
  cases cs with
  | nil => rfl
  | cons c t => simp [parseDigitsAux, h c rfl]

theorem parseDigitsAux_print (n : Nat) : ∀ (acc : Nat) (rest : List Char),
    parseDigitsAux ((natToDigitsRev n).reverse ++ rest) acc =
      parseDigitsAux rest (acc * 10 ^ (natToDigitsRev n).length + n) := by
  induction n using Nat.strong_induction_on with
  | _ n ih =>
    intro acc rest
    by_cases h : n < 10
    · rw [show natToDigitsRev n = [Nat.digitChar n] from by
        unfold natToDigitsRev; rw [dif_pos h]]
      simp only [List.reverse_singleton, List.singleton_append,
        List.length_singleton, pow_one]
      rw [show parseDigitsAux (Nat.digitChar n :: rest) acc =
          parseDigitsAux rest (acc * 10 + digitVal (Nat.digitChar n)) from by
        simp [parseDigitsAux, digitChar_isDigit n h]]
      rw [digitVal_digitChar n h]
    · rw [show natToDigitsRev n =
          Nat.digitChar (n % 10) :: natToDigitsRev (n / 10) from by
        conv_lhs => unfold natToDigitsRev
        rw [dif_neg h]]
      rw [List.reverse_cons, List.append_assoc,
        ih (n / 10) (Nat.div_lt_self (by omega) (by omega)) acc _]
      simp only [List.singleton_append]
      rw [show parseDigitsAux
            (Nat.digitChar (n % 10) :: rest)
            (acc * 10 ^ (natToDigitsRev (n / 10)).length + n / 10) =
          parseDigitsAux rest
            ((acc * 10 ^ (natToDigitsRev (n / 10)).length + n / 10) * 10 +
              digitVal (Nat.digitChar (n % 10))) from by
        simp [parseDigitsAux, digitChar_isDigit _ (Nat.mod_lt _ (by omega))]]
      rw [digitVal_digitChar _ (Nat.mod_lt _ (by omega))]
      congr 1
      rw [List.length_cons, pow_succ]
      have hdm := Nat.div_add_mod n 10
      set K := 10 ^ (natToDigitsRev (n / 10)).length
      ring_nf
      omega

theorem parseIntToken_neg (X : List Char) (d : Char) (tl : List Char)
    (hX : X = d :: tl) (hd : d.isDigit = true) :
    parseIntToken ('-' :: X) =
      some (-((parseDigitsAux X 0).1 : Int), (parseDigitsAux X 0).2) := by
  subst hX
  simp [parseIntToken, hd]

theorem parseIntToken_pos (d : Char) (tl : List Char) (hd : d.isDigit = true) :
    parseIntToken (d :: tl) =
      some (((parseDigitsAux (d :: tl) 0).1 : Int),
        (parseDigitsAux (d :: tl) 0).2) := by
  have hne : d ≠ '-' := char_ne_of_digit d '-' hd (by decide)
  simp [parseIntToken, hne, hd]

theorem parseIntToken_printInt (i : Int) (rest : List Char)
    (hrest : ∀ c, rest.head? = some c → c.isDigit = false) :
    parseIntToken (printInt i ++ rest) = some (i, rest) := by
  have hprint : ∀ (n : Nat), parseDigitsAux (printNat n ++ rest) 0 = (n, rest) := by
    intro n
    unfold printNat
    rw [parseDigitsAux_print n 0 rest]
    simp only [Nat.zero_mul, Nat.zero_add]
    exact parseDigitsAux_stop rest n hrest
  unfold printInt
  split
  · next hneg =>
    cases hpn : printNat i.natAbs with
    | nil => exact absurd hpn (printNat_ne_nil _)
    | cons d ds =>
      have hd : d.isDigit = true := printNat_digits _ d (by rw [hpn]; simp)
      rw [List.cons_append, List.cons_append]
      rw [parseIntToken_neg (d :: (ds ++ rest)) d (ds ++ rest) rfl hd]
      rw [show (d : Char) :: (ds ++ rest) = printNat i.natAbs ++ rest from by
        rw [hpn]
        rfl]
      rw [hprint i.natAbs]
      have h2 : -((i.natAbs : Int)) = i := by omega
      rw [h2]
  · next hpos =>
    cases hpn : printNat i.toNat with
    | nil => exact absurd hpn (printNat_ne_nil _)
    | cons d ds =>
      have hd : d.isDigit = true := printNat_digits _ d (by rw [hpn]; simp)
      rw [List.cons_append]
      rw [parseIntToken_pos d (ds ++ rest) hd]
      rw [show (d : Char) :: (ds ++ rest) = printNat i.toNat ++ rest from by
        rw [hpn]
        rfl]
      rw [hprint i.toNat]
      have h2 : ((i.toNat : Nat) : Int) = i := by omega
      rw [h2]

theorem parseStringBody_cons_quote (rest : List Char) :
    parseStringBody ('"' :: rest) = some ([], rest) := rfl

theorem parseStringBody_cons_esc (e u : Char) (rest : List Char)
    (hu : unescapeChar e = some u) :
    parseStringBody ('\\' :: e :: rest) =
      (match parseStringBody rest with
       | none => none
       | some (s, r) => some (u :: s, r)) := by
  rw [show parseStringBody ('\\' :: e :: rest) =
      (match unescapeChar e with
       | none => none
       | some u =>
         match parseStringBody rest with
         | none => none
         | some (s, r) => some (u :: s, r)) from rfl]
  rw [hu]

theorem parseStringBody_cons_raw (c : Char) (rest : List Char)
    (h1 : c ≠ '"') (h2 : c ≠ '\\') :
    parseStringBody (c :: rest) =
      (match parseStringBody rest with
       | none => none
       | some (s, r) => some (c :: s, r)) := by
  conv_lhs => rw [parseStringBody.eq_def]
  split
  · next heq => exact absurd heq (by simp)
  · next heq =>
    injection heq with he _
    exact absurd he h1
  · next heq =>
    injection heq with he ht
    exact absurd he h2
  · next heq =>
    injection heq with he _
    exact absurd he h2
  · next c2 r2 hne1 hne2 hne3 hne4 heq =>
    injection heq with he ht
    subst he
    subst ht
    rfl

theorem parseStringBody_escape (s : List Char) : ∀ (rest : List Char),
    parseStringBody (escapeString s ++ '"' :: rest) = some (s, rest) := by
  induction s with
  | nil =>
    intro rest
    simp only [escapeString, List.flatMap_nil, List.nil_append]
    exact parseStringBody_cons_quote rest
  | cons c t ih =>
    intro rest
    have hes : escapeString (c :: t) = escapeChar c ++ escapeString t := by
      simp [escapeString]
    rw [hes, List.append_assoc]
    unfold escapeChar
    split_ifs with h1 h2 h3 h4 h5
    · subst h1
      simp only [List.cons_append, List.nil_append]
      rw [parseStringBody_cons_esc '"' '"' _ rfl, ih rest]
    · subst h2
      simp only [List.cons_append, List.nil_append]
      rw [parseStringBody_cons_esc '\\' '\\' _ rfl, ih rest]
    · subst h3
      simp only [List.cons_append, List.nil_append]
      rw [parseStringBody_cons_esc 'n' '\n' _ rfl, ih rest]
    · subst h4
      simp only [List.cons_append, List.nil_append]
      rw [parseStringBody_cons_esc 't' '\t' _ rfl, ih rest]
    · subst h5
      simp only [List.cons_append, List.nil_append]
      rw [parseStringBody_cons_esc 'r' '\r' _ rfl, ih rest]
    · simp only [List.cons_append, List.nil_append]
      rw [parseStringBody_cons_raw c _ h1 h2, ih rest]

/- ============ C8 groundwork: serializer invariants ============ -/

/-- The characters a serialized value can start with. -/
def headOK (c : Char) : Prop :=
  c = '{' ∨ c = '[' ∨ c = '"' ∨ c = 't' ∨ c = 'f' ∨ c = 'n' ∨ c = '-' ∨
    c.isDigit = true

theorem headOK_not_ws {c : Char} (h : headOK c) : isJsonWS c = false := by
  rcases h with h | h | h | h | h | h | h | h
  all_goals first
    | (subst h; decide)
    | exact isJsonWS_of_digit c h

theorem printInt_head (i : Int) :
    ∃ c rest, printInt i = c :: rest ∧ (c = '-' ∨ c.isDigit = true) := by
  unfold printInt
  split
  · exact ⟨'-', printNat i.natAbs, rfl, Or.inl rfl⟩
  · cases hpn : printNat i.toNat with
    | nil => exact absurd hpn (printNat_ne_nil _)
    | cons d ds =>
      exact ⟨d, ds, rfl, Or.inr (printNat_digits _ d (by rw [hpn]; simp))⟩

theorem serializeJson_head (j : Json) :
    ∃ c rest, serializeJson j = c :: rest ∧ headOK c := by
  cases j with
  | null => exact ⟨'n', _, rfl, by unfold headOK; tauto⟩
  | bool b =>
    cases b with
    | true => exact ⟨'t', _, rfl, by unfold headOK; tauto⟩
    | false => exact ⟨'f', _, rfl, by unfold headOK; tauto⟩
  | num i =>
    obtain ⟨c, rest, hc, hor⟩ := printInt_head i
    exact ⟨c, rest, by rw [show serializeJson (Json.num i) = printInt i from rfl, hc],
      by unfold headOK; tauto⟩
  | str s => exact ⟨'"', _, rfl, by unfold headOK; tauto⟩
  | arr a => exact ⟨'[', _, rfl, by unfold headOK; tauto⟩
  | obj f => exact ⟨'{', _, rfl, by unfold headOK; tauto⟩

theorem isNLCR_of_digit (c : Char) (h : c.isDigit = true) :
    isNLCR c = false := by
  unfold isNLCR
  have h1 : c ≠ '\n' := char_ne_of_digit c '\n' h (by decide)
  have h2 : c ≠ '\r' := char_ne_of_digit c '\r' h (by decide)
  simp [h1, h2]

theorem printInt_chars (i : Int) (c : Char) (hc : c ∈ printInt i) :
    c = '-' ∨ c.isDigit = true := by
  unfold printInt at hc
  split at hc
  · rcases List.mem_cons.mp hc with h | h
    · exact Or.inl h
    · exact Or.inr (printNat_digits _ c h)
  · exact Or.inr (printNat_digits _ c hc)

theorem printInt_ne_nil (i : Int) : printInt i ≠ [] := by
  unfold printInt
  split
  · simp
  · exact printNat_ne_nil _

theorem escapeChar_noNL (c c' : Char) (h : c' ∈ escapeChar c) :
    isNLCR c' = false := by
  unfold escapeChar at h
  split_ifs at h with h1 h2 h3 h4 h5
  all_goals simp at h
  all_goals
    first
    | (rcases h with h | h <;> (subst h; decide))
    | (subst h; decide)
    | (subst h; unfold isNLCR; simp [h3, h5])

theorem escapeString_noNL (s : List Char) (c : Char) (h : c ∈ escapeString s) :
    isNLCR c = false := by
  unfold escapeString at h
  rw [List.mem_flatMap] at h
  obtain ⟨x, _, hcx⟩ := h
  exact escapeChar_noNL x c hcx

mutual
theorem serializeJson_noNL :
    ∀ (j : Json) (c : Char), c ∈ serializeJson j → isNLCR c = false
  | .null, c, hc => by
    simp [serializeJson] at hc
    rcases hc with h | h | h <;> (subst h; decide)
  | .bool true, c, hc => by
    simp [serializeJson] at hc
    rcases hc with h | h | h | h <;> (subst h; decide)
  | .bool false, c, hc => by
    simp [serializeJson] at hc
    rcases hc with h | h | h | h | h <;> (subst h; decide)
  | .num i, c, hc => by
    rcases printInt_chars i c hc with h | h
    · subst h; decide
    · exact isNLCR_of_digit c h
  | .str s, c, hc => by
    simp [serializeJson] at hc
    rcases hc with h | h | h
    · subst h; decide
    · exact escapeString_noNL s c h
    · subst h; decide
  | .arr a, c, hc => by
    simp [serializeJson] at hc
    rcases hc with h | h | h
    · subst h; decide
    · exact serializeArrItems_noNL a c h
    · subst h; decide
  | .obj f, c, hc => by
    simp [serializeJson] at hc
    rcases hc with h | h | h
    · subst h; decide
    · exact serializeObjItems_noNL f c h
    · subst h; decide

theorem serializeArrItems_noNL :
    ∀ (a : JsonArr) (c : Char), c ∈ serializeArrItems a → isNLCR c = false
  | .nil, c, hc => by simp [serializeArrItems] at hc
  | .cons j tl, c, hc => by
    simp [serializeArrItems] at hc
    rcases hc with h | h
    · exact serializeJson_noNL j c h
    · exact serializeArrRest_noNL tl c h

theorem serializeArrRest_noNL :
    ∀ (a : JsonArr) (c : Char), c ∈ serializeArrRest a → isNLCR c = false
  | .nil, c, hc => by simp [serializeArrRest] at hc
  | .cons j tl, c, hc => by
    simp [serializeArrRest] at hc
    rcases hc with h | h | h | h
    · subst h; decide
    · subst h; decide
    · exact serializeJson_noNL j c h
    · exact serializeArrRest_noNL tl c h

theorem serializeObjItems_noNL :
    ∀ (f : JsonFields) (c : Char), c ∈ serializeObjItems f → isNLCR c = false
  | .nil, c, hc => by simp [serializeObjItems] at hc
  | .cons k v tl, c, hc => by
    simp [serializeObjItems] at hc
    rcases hc with h | h | h | h | h | h
    · subst h; decide
    · exact escapeString_noNL k c h
    · subst h; decide
    · subst h; decide
    · subst h; decide
    · rcases h with h | h
      · exact serializeJson_noNL v c h
      · exact serializeObjRest_noNL tl c h

theorem serializeObjRest_noNL :
    ∀ (f : JsonFields) (c : Char), c ∈ serializeObjRest f → isNLCR c = false
  | .nil, c, hc => by simp [serializeObjRest] at hc
  | .cons k v tl, c, hc => by
    simp [serializeObjRest] at hc
    rcases hc with h | h | h | h | h | h | h | h
    · subst h; decide
    · subst h; decide
    · subst h; decide
    · exact escapeString_noNL k c h
    · subst h; decide
    · subst h; decide
    · subst h; decide
    · rcases h with h | h
      · exact serializeJson_noNL v c h
      · exact serializeObjRest_noNL tl c h
end

/-- The characters a serialized value can end with. -/
def lastOK (c : Char) : Prop :=
  c = '}' ∨ c = ']' ∨ c = '"' ∨ c = 'e' ∨ c = 'l' ∨ c.isDigit = true

theorem printNat_last (n : Nat) :
    ∃ c, (printNat n).getLast? = some c ∧ c.isDigit = true := by
  unfold printNat
  rw [List.getLast?_reverse]
  cases hd : natToDigitsRev n with
  | nil => exact absurd hd (natToDigitsRev_ne_nil n)
  | cons d ds =>
    exact ⟨d, rfl, natToDigitsRev_digits n d (by rw [hd]; simp)⟩

theorem serializeJson_last (j : Json) :
    ∃ c, (serializeJson j).getLast? = some c ∧ lastOK c := by
  cases j with
  | null => exact ⟨'l', by decide, by unfold lastOK; tauto⟩
  | bool b =>
    cases b with
    | true => exact ⟨'e', by decide, by unfold lastOK; tauto⟩
    | false => exact ⟨'e', by decide, by unfold lastOK; tauto⟩
  | num i =>
    show ∃ c, (printInt i).getLast? = some c ∧ lastOK c
    unfold printInt
    split
    · obtain ⟨c, hc, hd⟩ := printNat_last i.natAbs
      refine ⟨c, ?_, by unfold lastOK; tauto⟩
      rw [show '-' :: printNat i.natAbs = ['-'] ++ printNat i.natAbs from rfl,
        List.getLast?_append_of_ne_nil _ (printNat_ne_nil _)]
      exact hc
    · obtain ⟨c, hc, hd⟩ := printNat_last i.toNat
      exact ⟨c, hc, by unfold lastOK; tauto⟩
  | str s =>
    refine ⟨'"', ?_, by unfold lastOK; tauto⟩
    show ('"' :: (escapeString s ++ ['"'])).getLast? = some '"'
    rw [← List.cons_append, List.getLast?_concat]
  | arr a =>
    refine ⟨']', ?_, by unfold lastOK; tauto⟩
    show ('[' :: (serializeArrItems a ++ [']'])).getLast? = some ']'
    rw [← List.cons_append, List.getLast?_concat]
  | obj f =>
    refine ⟨'}', ?_, by unfold lastOK; tauto⟩
    show ('{' :: (serializeObjItems f ++ ['}'])).getLast? = some '}'
    rw [← List.cons_append, List.getLast?_concat]

mutual
theorem jsize_le_len : ∀ (j : Json), jsize j ≤ (serializeJson j).length
  | .null => by decide
  | .bool b => by cases b <;> decide
  | .num i => by
    have := List.length_pos.mpr (printInt_ne_nil i)
    show jsize (Json.num i) ≤ (printInt i).length
    unfold jsize
    omega
  | .str s => by
    show 1 ≤ ('"' :: (escapeString s ++ ['"'])).length
    simp
  | .arr a => by
    have h1 := asize_le_items a
    show asize a + 1 ≤ ('[' :: (serializeArrItems a ++ [']'])).length
    simp only [List.length_cons, List.length_append, List.length_singleton]
    omega
  | .obj f => by
    have h1 := fsize_le_items f
    show fsize f + 1 ≤ ('{' :: (serializeObjItems f ++ ['}'])).length
    simp only [List.length_cons, List.length_append, List.length_singleton]
    omega

theorem asize_le_items : ∀ (a : JsonArr),
    asize a ≤ (serializeArrItems a).length + 1
  | .nil => by simp [asize, serializeArrItems]
  | .cons j tl => by
    have h1 := jsize_le_len j
    have h2 := asize_le_rest tl
    show jsize j + asize tl + 1 ≤
      (serializeJson j ++ serializeArrRest tl).length + 1
    simp only [List.length_append]
    omega

theorem asize_le_rest : ∀ (a : JsonArr),
    asize a ≤ (serializeArrRest a).length
  | .nil => by simp [asize, serializeArrRest]
  | .cons j tl => by
    have h1 := jsize_le_len j
    have h2 := asize_le_rest tl
    show jsize j + asize tl + 1 ≤
      (',' :: ' ' :: (serializeJson j ++ serializeArrRest tl)).length
    simp only [List.length_cons, List.length_append]
    omega

theorem fsize_le_items : ∀ (f : JsonFields),
    fsize f ≤ (serializeObjItems f).length + 1
  | .nil => by simp [fsize, serializeObjItems]
  | .cons k v tl => by
    have h1 := jsize_le_len v
    have h2 := fsize_le_rest tl
    show jsize v + fsize tl + 1 ≤
      ('"' :: (escapeString k ++ '"' :: ':' :: ' ' :: serializeJson v) ++
        serializeObjRest tl).length + 1
    simp only [List.length_append, List.length_cons]
    omega

theorem fsize_le_rest : ∀ (f : JsonFields),
    fsize f ≤ (serializeObjRest f).length
  | .nil => by simp [fsize, serializeObjRest]
  | .cons k v tl => by
    have h1 := jsize_le_len v
    have h2 := fsize_le_rest tl
    show jsize v + fsize tl + 1 ≤
      (',' :: ' ' ::
        ('"' :: (escapeString k ++ '"' :: ':' :: ' ' :: serializeJson v)) ++
        serializeObjRest tl).length
    simp only [List.length_append, List.length_cons]
    omega
end

/- ============ C8 groundwork: _clean_json_text is the identity on
serialized output ============ -/

theorem isPyWS_of_digit (c : Char) (h : c.isDigit = true) :
    isPyWS c = false := by
  unfold isPyWS
  have h1 : c ≠ ' ' := char_ne_of_digit c ' ' h (by decide)
  have h2 : c ≠ '\t' := char_ne_of_digit c '\t' h (by decide)
  have h3 : c ≠ '\n' := char_ne_of_digit c '\n' h (by decide)
  have h4 : c ≠ '\r' := char_ne_of_digit c '\r' h (by decide)
  have h5 : c ≠ '\x0b' := char_ne_of_digit c '\x0b' h (by decide)
  have h6 : c ≠ '\x0c' := char_ne_of_digit c '\x0c' h (by decide)
  simp [h1, h2, h3, h4, h5, h6]

theorem headOK_not_pyws {c : Char} (h : headOK c) : isPyWS c = false := by
  rcases h with h | h | h | h | h | h | h | h
  all_goals first
    | (subst h; decide)
    | exact isPyWS_of_digit c h

theorem lastOK_not_pyws {c : Char} (h : lastOK c) : isPyWS c = false := by
  rcases h with h | h | h | h | h | h
  all_goals first
    | (subst h; decide)
    | exact isPyWS_of_digit c h

theorem headOK_ne_backtick {c : Char} (h : headOK c) : '`' ≠ c := by
  rcases h with h | h | h | h | h | h | h | h
  all_goals first
    | (subst h; decide)
    | exact (char_ne_of_digit c '`' h (by decide)).symm

theorem toLower_eq_of_digit (c : Char) (h : c.isDigit = true) :
    Char.toLower c = c := by
  unfold Char.isDigit at h
  simp at h
  obtain ⟨h1, h2⟩ := h
  unfold Char.toLower
  rw [if_neg]
  intro hcon
  obtain ⟨h3, h4⟩ := hcon
  have hv : c.toNat ≤ 57 := h2
  omega

theorem headOK_toLower_ne_j {c : Char} (h : headOK c) : 'j' ≠ Char.toLower c := by
  rcases h with h | h | h | h | h | h | h | h
  all_goals first
    | (subst h; decide)
    | (rw [toLower_eq_of_digit c h]
       exact (char_ne_of_digit c 'j' h (by decide)).symm)

theorem dropWhile_eq_self_of_head (p : Char → Bool) (cs : List Char)
    (h : ∀ c, cs.head? = some c → p c = false) : cs.dropWhile p = cs := by
  cases cs with
  | nil => rfl
  | cons c t => simp [List.dropWhile_cons, h c rfl]

theorem stripPy_eq_self (cs : List Char)
    (h1 : ∀ c, cs.head? = some c → isPyWS c = false)
    (h2 : ∀ c, cs.getLast? = some c → isPyWS c = false) :
    stripPy cs = cs := by
  unfold stripPy
  rw [dropWhile_eq_self_of_head _ _ h1]
  rw [dropWhile_eq_self_of_head _ _ (fun c hc =>
    h2 c (by rw [← List.head?_reverse]; exact hc))]
  rw [List.reverse_reverse]

theorem pySplitlines_cons_other (c : Char) (t : List Char)
    (h1 : c ≠ '\n') (h2 : c ≠ '\r') :
    pySplitlines (c :: t) =
      (match pySplitlines t with
       | [] => [[c]]
       | l :: ls => (c :: l) :: ls) := by
  conv_lhs => rw [pySplitlines.eq_def]
  split
  · next heq => exact absurd heq (by simp)
  · next heq =>
    injection heq with he _
    exact absurd he h1
  · next heq =>
    injection heq with he _
    exact absurd he h2
  · next heq =>
    injection heq with he _
    exact absurd he h2
  · next c' t' hne1 hne2 hne3 hne4 heq =>
    injection heq with he ht
    subst he
    subst ht
    rfl

theorem pySplitlines_singleton (cs : List Char) (hne : cs ≠ [])
    (h : ∀ c ∈ cs, isNLCR c = false) : pySplitlines cs = [cs] := by
  induction cs with
  | nil => exact absurd rfl hne
  | cons c t ih =>
    have hc := h c (by simp)
    have hcn : c ≠ '\n' := by
      intro he
      subst he
      simp [isNLCR] at hc
    have hcr : c ≠ '\r' := by
      intro he
      subst he
      simp [isNLCR] at hc
    rw [pySplitlines_cons_other c t hcn hcr]
    cases ht : t with
    | nil => rfl
    | cons c2 t2 =>
      rw [← ht]
      rw [ih (by rw [ht]; simp) (fun x hx => h x (by simp [hx]))]

/-- `_clean_json_text` leaves serialized output untouched: it is a single
line, carries no surrounding whitespace, starts with no fence marker and
with no `json` label. -/
theorem clean_json_text_serialize (j : Json) :
    clean_json_text (serializeJson j) = serializeJson j := by
  obtain ⟨c0, rest0, hser, hhead⟩ := serializeJson_head j
  obtain ⟨cl, hlast, hlastok⟩ := serializeJson_last j
  have hnonempty : serializeJson j ≠ [] := by
    rw [hser]
    simp
  have hstrip : stripPy (serializeJson j) = serializeJson j := by
    apply stripPy_eq_self
    · intro c hc
      rw [hser] at hc
      simp at hc
      subst hc
      exact headOK_not_pyws hhead
    · intro c hc
      rw [hlast] at hc
      cases Option.some.inj hc
      exact lastOK_not_pyws hlastok
  have hfence : (('`' :: '`' :: ['`']).isPrefixOf
      (stripPy (serializeJson j))) = false := by
    rw [hstrip, hser]
    rw [ List.isPrefixOf_cons₂]
    rw [beq_eq_false_iff_ne.mpr (headOK_ne_backtick hhead)]
    rfl
  have hjson : (("json".toList).isPrefixOf
      ((serializeJson j).map Char.toLower)) = false := by
    rw [hser]
    rw [List.map_cons]
    rw [show "json".toList = 'j' :: "son".toList from rfl]
    rw [ List.isPrefixOf_cons₂]
    rw [beq_eq_false_iff_ne.mpr (headOK_toLower_ne_j hhead)]
    rfl
  unfold clean_json_text
  rw [pySplitlines_singleton _ hnonempty (serializeJson_noNL j)]
  rw [show List.filter (fun l => !("```".toList.isPrefixOf (stripPy l)))
      [serializeJson j] = [serializeJson j] from by simp [hfence]]
  dsimp only
  rw [show joinNL [serializeJson j] = serializeJson j from rfl]
  rw [hstrip]
  rw [if_neg (by rw [hjson]; simp)]

/- ============ C8 groundwork: parser dispatch lemmas ============ -/

theorem isPrefixOf_cons_false {a c : Char} (as cs : List Char) (h : a ≠ c) :
    (a :: as).isPrefixOf (c :: cs) = false := by
  rw [ List.isPrefixOf_cons₂, beq_eq_false_iff_ne.mpr h]
  rfl

theorem parseValue_spaces (f : Nat) (pre cs : List Char)
    (hpre : ∀ c ∈ pre, c = ' ') :
    parseValue (f + 1) (pre ++ cs) = parseValue (f + 1) cs := by
  conv_lhs => rw [parseValue.eq_def]
  conv_rhs => rw [parseValue.eq_def]
  dsimp only
  rw [skipWS_spaces_append pre cs hpre]

theorem parseValue_succ_other (fuel : Nat) (c : Char) (r : List Char)
    (hws : isJsonWS c = false)
    (h1 : c ≠ '{') (h2 : c ≠ '[') (h3 : c ≠ '"')
    (h4 : c ≠ 't') (h5 : c ≠ 'f') (h6 : c ≠ 'n') :
    parseValue (fuel + 1) (c :: r) =
      (match parseIntToken (c :: r) with
       | some (i, r2) => some (Json.num i, r2)
       | none => none) := by
  conv_lhs => rw [parseValue.eq_def]
  dsimp only
  rw [skipWS_of_head _ _ hws]
  dsimp only
  rw [if_neg h1, if_neg h2, if_neg h3]
  rw [show litTrue = 't' :: 'r' :: 'u' :: ['e'] from rfl,
    isPrefixOf_cons_false _ _ (Ne.symm h4)]
  rw [show litFalse = 'f' :: 'a' :: 'l' :: 's' :: ['e'] from rfl,
    isPrefixOf_cons_false _ _ (Ne.symm h5)]
  rw [show litNull = 'n' :: 'u' :: 'l' :: ['l'] from rfl,
    isPrefixOf_cons_false _ _ (Ne.symm h6)]
  simp only [Bool.false_eq_true, if_false]

theorem parseValue_succ_quote (fuel : Nat) (r : List Char) :
    parseValue (fuel + 1) ('"' :: r) =
      (match parseStringBody r with
       | some (s, r2) => some (Json.str s, r2)
       | none => none) := by
  conv_lhs => rw [parseValue.eq_def]
  dsimp only
  rw [skipWS_of_head _ _ (by decide)]
  dsimp only
  rw [if_neg (by decide), if_neg (by decide), if_pos rfl]

theorem parseValue_succ_lbrace (fuel : Nat) (r : List Char) :
    parseValue (fuel + 1) ('{' :: r) =
      (if (skipWS r).head? = some '}' then
        some (Json.obj JsonFields.nil, (skipWS r).tail)
       else
        match parseFieldList fuel r with
        | some (fs, r2) => some (Json.obj fs, r2)
        | none => none) := by
  conv_lhs => rw [parseValue.eq_def]
  dsimp only
  rw [skipWS_of_head _ _ (by decide)]
  dsimp only
  rw [if_pos rfl]

theorem parseValue_succ_lbracket (fuel : Nat) (r : List Char) :
    parseValue (fuel + 1) ('[' :: r) =
      (if (skipWS r).head? = some ']' then
        some (Json.arr JsonArr.nil, (skipWS r).tail)
       else
        match parseItemList fuel r with
        | some (a, r2) => some (Json.arr a, r2)
        | none => none) := by
  conv_lhs => rw [parseValue.eq_def]
  dsimp only
  rw [skipWS_of_head _ _ (by decide)]
  dsimp only
  rw [if_neg (by decide), if_pos rfl]

theorem parseValue_succ_true (fuel : Nat) (r : List Char) :
    parseValue (fuel + 1) ('t' :: 'r' :: 'u' :: 'e' :: r) =
      some (Json.bool true, r) := by
  conv_lhs => rw [parseValue.eq_def]
  dsimp only
  rw [skipWS_of_head _ _ (by decide)]
  dsimp only
  rw [if_neg (by decide), if_neg (by decide), if_neg (by decide)]
  rw [if_pos (by
    apply List.isPrefixOf_iff_prefix.mpr
    exact ⟨r, rfl⟩)]
  rfl

theorem parseValue_succ_false (fuel : Nat) (r : List Char) :
    parseValue (fuel + 1) ('f' :: 'a' :: 'l' :: 's' :: 'e' :: r) =
      some (Json.bool false, r) := by
  conv_lhs => rw [parseValue.eq_def]
  dsimp only
  rw [skipWS_of_head _ _ (by decide)]
  dsimp only
  rw [if_neg (by decide), if_neg (by decide), if_neg (by decide)]
  rw [show litTrue = 't' :: 'r' :: 'u' :: ['e'] from rfl,
    isPrefixOf_cons_false _ _ (by decide)]
  simp only [Bool.false_eq_true, if_false]
  rw [if_pos (by
    apply List.isPrefixOf_iff_prefix.mpr
    exact ⟨r, rfl⟩)]
  rfl

theorem parseValue_succ_null (fuel : Nat) (r : List Char) :
    parseValue (fuel + 1) ('n' :: 'u' :: 'l' :: 'l' :: r) =
      some (Json.null, r) := by
  conv_lhs => rw [parseValue.eq_def]
  dsimp only
  rw [skipWS_of_head _ _ (by decide)]
  dsimp only
  rw [if_neg (by decide), if_neg (by decide), if_neg (by decide)]
  rw [show litTrue = 't' :: 'r' :: 'u' :: ['e'] from rfl,
    isPrefixOf_cons_false _ _ (by decide)]
  rw [show litFalse = 'f' :: 'a' :: 'l' :: 's' :: ['e'] from rfl,
    isPrefixOf_cons_false _ _ (by decide)]
  simp only [Bool.false_eq_true, if_false]
  rw [if_pos (by
    apply List.isPrefixOf_iff_prefix.mpr
    exact ⟨r, rfl⟩)]
  rfl

theorem parseItemList_succ (fuel : Nat) (cs : List Char) :
    parseItemList (fuel + 1) cs =
      (match parseValue fuel cs with
       | none => none
       | some (v, r) =>
         if (skipWS r).head? = some ',' then
           match parseItemList fuel (skipWS r).tail with
           | some (tl, r3) => some (JsonArr.cons v tl, r3)
           | none => none
         else if (skipWS r).head? = some ']' then
           some (JsonArr.cons v JsonArr.nil, (skipWS r).tail)
         else none) := by
  conv_lhs => rw [parseItemList.eq_def]

theorem parseFieldList_succ (fuel : Nat) (cs : List Char) :
    parseFieldList (fuel + 1) cs =
      (if (skipWS cs).head? = some '"' then
        match parseStringBody (skipWS cs).tail with
        | none => none
        | some (k, r1) =>
          if (skipWS r1).head? = some ':' then
            match parseValue fuel (skipWS r1).tail with
            | none => none
            | some (v, r3) =>
              if (skipWS r3).head? = some ',' then
                match parseFieldList fuel (skipWS r3).tail with
                | some (tl, r5) => some (JsonFields.cons k v tl, r5)
                | none => none
              else if (skipWS r3).head? = some '}' then
                some (JsonFields.cons k v JsonFields.nil, (skipWS r3).tail)
              else none
          else none
       else none) := by
  conv_lhs => rw [parseFieldList.eq_def]

theorem headOK_ne_rbracket {c : Char} (h : headOK c) : c ≠ ']' := by
  rcases h with h | h | h | h | h | h | h | h
  all_goals first
    | (subst h; decide)
    | exact char_ne_of_digit c ']' h (by decide)

theorem headOK_ne_rbrace {c : Char} (h : headOK c) : c ≠ '}' := by
  rcases h with h | h | h | h | h | h | h | h
  all_goals first
    | (subst h; decide)
    | exact char_ne_of_digit c '}' h (by decide)

theorem jsize_pos (j : Json) : 1 ≤ jsize j := by
  cases j <;> simp [jsize]

/-- The continuation after a serialized number must not begin with a digit
(true of every context the serializer produces). -/
def restOK (rest : List Char) : Prop :=
  ∀ c, rest.head? = some c → c.isDigit = false

/-- Round-trip statement for values at a given fuel. -/
def StmtV (fuel : Nat) : Prop :=
  ∀ (j : Json) (rest : List Char), jsize j < fuel → restOK rest →
    parseValue fuel (serializeJson j ++ rest) = some (j, rest)

/-- Round-trip statement for non-empty array element lists at a given
fuel; `pre` is the run of separator spaces already consumed. -/
def StmtA (fuel : Nat) : Prop :=
  ∀ (j : Json) (tl : JsonArr) (rest pre : List Char),
    (∀ c ∈ pre, c = ' ') → asize (JsonArr.cons j tl) < fuel →
    parseItemList fuel
      (pre ++ (serializeArrItems (JsonArr.cons j tl) ++ ']' :: rest)) =
      some (JsonArr.cons j tl, rest)

/-- Round-trip statement for non-empty object field lists at a given
fuel. -/
def StmtF (fuel : Nat) : Prop :=
  ∀ (k : List Char) (v : Json) (tl : JsonFields) (rest pre : List Char),
    (∀ c ∈ pre, c = ' ') → fsize (JsonFields.cons k v tl) < fuel →
    parseFieldList fuel
      (pre ++ (serializeObjItems (JsonFields.cons k v tl) ++ '}' :: rest)) =
      some (JsonFields.cons k v tl, rest)

theorem stmtV_step (fuel : Nat) (ihA : StmtA fuel) (ihF : StmtF fuel) :
    StmtV (fuel + 1) := by
  intro j rest hsz hrest
  cases j with
  | null =>
    rw [show serializeJson Json.null ++ rest = 'n' :: 'u' :: 'l' :: 'l' :: rest
      from rfl]
    exact parseValue_succ_null fuel rest
  | bool b =>
    cases b with
    | true =>
      rw [show serializeJson (Json.bool true) ++ rest =
        't' :: 'r' :: 'u' :: 'e' :: rest from rfl]
      exact parseValue_succ_true fuel rest
    | false =>
      rw [show serializeJson (Json.bool false) ++ rest =
        'f' :: 'a' :: 'l' :: 's' :: 'e' :: rest from rfl]
      exact parseValue_succ_false fuel rest
  | num i =>
    obtain ⟨c, cs', hc, hor⟩ := printInt_head i
    have hws : isJsonWS c = false := by
      rcases hor with h | h
      · subst h; decide
      · exact isJsonWS_of_digit c h
    have hne : ∀ d : Char, d.isDigit = false → d ≠ '-' → c ≠ d := by
      intro d hd hdm
      rcases hor with h | h
      · subst h
        exact fun he => hdm he.symm
      · exact char_ne_of_digit c d h hd
    show parseValue (fuel + 1) (printInt i ++ rest) = some (Json.num i, rest)
    rw [hc, List.cons_append]
    rw [parseValue_succ_other fuel c (cs' ++ rest) hws
      (hne '{' (by decide) (by decide)) (hne '[' (by decide) (by decide))
      (hne '"' (by decide) (by decide)) (hne 't' (by decide) (by decide))
      (hne 'f' (by decide) (by decide)) (hne 'n' (by decide) (by decide))]
    rw [← List.cons_append, ← hc]
    rw [parseIntToken_printInt i rest hrest]
  | str s =>
    show parseValue (fuel + 1) (('"' :: (escapeString s ++ ['"'])) ++ rest) =
      some (Json.str s, rest)
    rw [show ('"' :: (escapeString s ++ ['"'])) ++ rest =
      '"' :: (escapeString s ++ '"' :: rest) from by simp]
    rw [parseValue_succ_quote]
    rw [parseStringBody_escape s rest]
  | arr a =>
    cases a with
    | nil =>
      show parseValue (fuel + 1)
        (('[' :: (serializeArrItems JsonArr.nil ++ [']'])) ++ rest) =
        some (Json.arr JsonArr.nil, rest)
      rw [show ('[' :: (serializeArrItems JsonArr.nil ++ [']'])) ++ rest =
        '[' :: ']' :: rest from rfl]
      rw [parseValue_succ_lbracket]
      rw [skipWS_of_head _ _ (by decide)]
      rw [if_pos (show ((']' : Char) :: rest).head? = some ']' from rfl)]
      rfl
    | cons j1 tl =>
      show parseValue (fuel + 1)
        (('[' :: (serializeArrItems (JsonArr.cons j1 tl) ++ [']'])) ++ rest) =
        some (Json.arr (JsonArr.cons j1 tl), rest)
      obtain ⟨c1, cs1, hc1, hh1⟩ := serializeJson_head j1
      have hitems : serializeArrItems (JsonArr.cons j1 tl) ++ ']' :: rest =
          c1 :: (cs1 ++ (serializeArrRest tl ++ ']' :: rest)) := by
        show (serializeJson j1 ++ serializeArrRest tl) ++ ']' :: rest = _
        rw [hc1]
        simp
      rw [show ('[' :: (serializeArrItems (JsonArr.cons j1 tl) ++ [']'])) ++
          rest =
        '[' :: (serializeArrItems (JsonArr.cons j1 tl) ++ ']' :: rest)
        from by simp]
      rw [parseValue_succ_lbracket]
      rw [hitems, skipWS_of_head _ _ (headOK_not_ws hh1)]
      rw [if_neg (by simp [headOK_ne_rbracket hh1])]
      rw [← hitems]
      rw [show serializeArrItems (JsonArr.cons j1 tl) ++ ']' :: rest =
        [] ++ (serializeArrItems (JsonArr.cons j1 tl) ++ ']' :: rest)
        from rfl]
      rw [ihA j1 tl rest [] (by simp) (by
        have h2 := hsz
        simp [jsize] at h2
        omega)]
  | obj f =>
    cases f with
    | nil =>
      show parseValue (fuel + 1)
        (('{' :: (serializeObjItems JsonFields.nil ++ ['}'])) ++ rest) =
        some (Json.obj JsonFields.nil, rest)
      rw [show ('{' :: (serializeObjItems JsonFields.nil ++ ['}'])) ++ rest =
        '{' :: '}' :: rest from rfl]
      rw [parseValue_succ_lbrace]
      rw [skipWS_of_head _ _ (by decide)]
      rw [if_pos (show (('}' : Char) :: rest).head? = some '}' from rfl)]
      rfl
    | cons k v tl =>
      show parseValue (fuel + 1)
        (('{' :: (serializeObjItems (JsonFields.cons k v tl) ++ ['}'])) ++
          rest) =
        some (Json.obj (JsonFields.cons k v tl), rest)
      have hitems : serializeObjItems (JsonFields.cons k v tl) ++ '}' :: rest =
          '"' :: ((escapeString k ++ '"' :: ':' :: ' ' :: serializeJson v) ++
            (serializeObjRest tl ++ '}' :: rest)) := by
        show ('"' :: (escapeString k ++ '"' :: ':' :: ' ' :: serializeJson v) ++
          serializeObjRest tl) ++ '}' :: rest = _
        simp
      rw [show ('{' :: (serializeObjItems (JsonFields.cons k v tl) ++ ['}'])) ++
          rest =
        '{' :: (serializeObjItems (JsonFields.cons k v tl) ++ '}' :: rest)
        from by simp]
      rw [parseValue_succ_lbrace]
      rw [hitems, skipWS_of_head _ _ (by decide)]
      rw [if_neg (by simp)]
      rw [← hitems]
      rw [show serializeObjItems (JsonFields.cons k v tl) ++ '}' :: rest =
        [] ++ (serializeObjItems (JsonFields.cons k v tl) ++ '}' :: rest)
        from rfl]
      rw [ihF k v tl rest [] (by simp) (by
        have h2 := hsz
        simp [jsize] at h2
        omega)]

theorem stmtA_step (fuel : Nat) (ihV : StmtV fuel) (ihA : StmtA fuel) :
    StmtA (fuel + 1) := by
  intro j tl rest pre hpre hsz
  have hj1 : 1 ≤ jsize j := jsize_pos j
  have hszc : jsize j + asize tl + 1 < fuel + 1 := by
    simpa [asize] using hsz
  obtain ⟨f2, rfl⟩ : ∃ f2, fuel = f2 + 1 := ⟨fuel - 1, by omega⟩
  rw [parseItemList_succ]
  rw [show pre ++ (serializeArrItems (JsonArr.cons j tl) ++ ']' :: rest) =
    pre ++ (serializeJson j ++ (serializeArrRest tl ++ ']' :: rest)) from by
    show pre ++ ((serializeJson j ++ serializeArrRest tl) ++ ']' :: rest) = _
    simp]
  rw [parseValue_spaces f2 pre _ hpre]
  have hrest2 : restOK (serializeArrRest tl ++ ']' :: rest) := by
    cases tl with
    | nil =>
      intro c hc
      rw [show serializeArrRest JsonArr.nil ++ ']' :: rest = ']' :: rest
        from rfl] at hc
      cases Option.some.inj hc
      decide
    | cons j2 tl2 =>
      intro c hc
      rw [show serializeArrRest (JsonArr.cons j2 tl2) ++ ']' :: rest =
        ',' :: ((' ' :: (serializeJson j2 ++ serializeArrRest tl2)) ++
          ']' :: rest) from rfl] at hc
      cases Option.some.inj hc
      decide
  rw [ihV j _ (by omega) hrest2]
  dsimp only
  cases tl with
  | nil =>
    rw [show serializeArrRest JsonArr.nil ++ ']' :: rest = ']' :: rest
      from rfl]
    rw [skipWS_of_head _ _ (by decide)]
    rw [if_neg (by simp), if_pos (show ((']' : Char) :: rest).head? = some ']'
      from rfl)]
    rfl
  | cons j2 tl2 =>
    rw [show serializeArrRest (JsonArr.cons j2 tl2) ++ ']' :: rest =
      ',' :: (' ' :: ((serializeJson j2 ++ serializeArrRest tl2) ++
        ']' :: rest)) from by
      show (',' :: ' ' :: (serializeJson j2 ++ serializeArrRest tl2)) ++
        ']' :: rest = _
      simp]
    rw [skipWS_of_head _ _ (by decide)]
    rw [if_pos (show ((',' : Char) :: _).head? = some ',' from rfl)]
    rw [show ((',' : Char) :: (' ' :: ((serializeJson j2 ++
        serializeArrRest tl2) ++ ']' :: rest))).tail =
      [' '] ++ (serializeArrItems (JsonArr.cons j2 tl2) ++ ']' :: rest)
      from by
      show ' ' :: ((serializeJson j2 ++ serializeArrRest tl2) ++ ']' :: rest) =
        _
      simp [serializeArrItems]]
    rw [ihA j2 tl2 rest [' '] (by simp) (by simp [asize] at hszc ⊢; omega)]

theorem stmtF_step (fuel : Nat) (ihV : StmtV fuel) (ihF : StmtF fuel) :
    StmtF (fuel + 1) := by
  intro k v tl rest pre hpre hsz
  have hj1 : 1 ≤ jsize v := jsize_pos v
  have hszc : jsize v + fsize tl + 1 < fuel + 1 := by
    simpa [fsize] using hsz
  obtain ⟨f2, rfl⟩ : ∃ f2, fuel = f2 + 1 := ⟨fuel - 1, by omega⟩
  rw [parseFieldList_succ]
  rw [show pre ++ (serializeObjItems (JsonFields.cons k v tl) ++ '}' :: rest) =
    pre ++ ('"' :: (escapeString k ++ '"' ::
      (':' :: ' ' :: (serializeJson v ++
        (serializeObjRest tl ++ '}' :: rest))))) from by
    show pre ++ (('"' :: (escapeString k ++ '"' :: ':' :: ' ' ::
      serializeJson v) ++ serializeObjRest tl) ++ '}' :: rest) = _
    simp]
  rw [skipWS_spaces_append pre _ hpre, skipWS_of_head _ _ (by decide)]
  rw [if_pos (show (('"' : Char) :: _).head? = some '"' from rfl)]
  rw [show (('"' : Char) :: (escapeString k ++ '"' ::
      (':' :: ' ' :: (serializeJson v ++
        (serializeObjRest tl ++ '}' :: rest))))).tail =
    escapeString k ++ '"' :: (':' :: ' ' :: (serializeJson v ++
      (serializeObjRest tl ++ '}' :: rest))) from rfl]
  rw [parseStringBody_escape k]
  dsimp only
  rw [skipWS_of_head _ _ (by decide)]
  rw [if_pos (show ((':' : Char) :: _).head? = some ':' from rfl)]
  rw [show ((':' : Char) :: (' ' :: (serializeJson v ++
      (serializeObjRest tl ++ '}' :: rest)))).tail =
    [' '] ++ (serializeJson v ++ (serializeObjRest tl ++ '}' :: rest))
    from rfl]
  rw [parseValue_spaces f2 [' '] _ (by simp)]
  have hrest2 : restOK (serializeObjRest tl ++ '}' :: rest) := by
    cases tl with
    | nil =>
      intro c hc
      rw [show serializeObjRest JsonFields.nil ++ '}' :: rest = '}' :: rest
        from rfl] at hc
      cases Option.some.inj hc
      decide
    | cons k2 v2 tl2 =>
      intro c hc
      rw [show serializeObjRest (JsonFields.cons k2 v2 tl2) ++ '}' :: rest =
        ',' :: ((' ' :: ('"' :: (escapeString k2 ++ '"' :: ':' :: ' ' ::
          serializeJson v2)) ++ serializeObjRest tl2) ++ '}' :: rest)
        from rfl] at hc
      cases Option.some.inj hc
      decide
  rw [ihV v _ (by omega) hrest2]
  dsimp only
  cases tl with
  | nil =>
    rw [show serializeObjRest JsonFields.nil ++ '}' :: rest = '}' :: rest
      from rfl]
    rw [skipWS_of_head _ _ (by decide)]
    rw [if_neg (by simp), if_pos (show (('}' : Char) :: rest).head? = some '}'
      from rfl)]
    rfl
  | cons k2 v2 tl2 =>
    rw [show serializeObjRest (JsonFields.cons k2 v2 tl2) ++ '}' :: rest =
      ',' :: (' ' :: ((('"' :: (escapeString k2 ++ '"' :: ':' :: ' ' ::
        serializeJson v2)) ++ serializeObjRest tl2) ++ '}' :: rest)) from by
      show (',' :: ' ' :: (('"' :: (escapeString k2 ++ '"' :: ':' :: ' ' ::
        serializeJson v2)) ++ serializeObjRest tl2)) ++ '}' :: rest = _
      simp]
    rw [skipWS_of_head _ _ (by decide)]
    rw [if_pos (show ((',' : Char) :: _).head? = some ',' from rfl)]
    rw [show ((',' : Char) :: (' ' :: ((('"' :: (escapeString k2 ++ '"' ::
        ':' :: ' ' :: serializeJson v2)) ++ serializeObjRest tl2) ++
        '}' :: rest))).tail =
      [' '] ++ (serializeObjItems (JsonFields.cons k2 v2 tl2) ++ '}' :: rest)
      from by
      show ' ' :: ((('"' :: (escapeString k2 ++ '"' :: ':' :: ' ' ::
        serializeJson v2)) ++ serializeObjRest tl2) ++ '}' :: rest) = _
      simp [serializeObjItems]]
    rw [ihF k2 v2 tl2 rest [' '] (by simp) (by simp [fsize] at hszc ⊢; omega)]

/-- The printer–parser round trip, by induction on the fuel. -/
theorem parse_serialize (fuel : Nat) :
    StmtV fuel ∧ StmtA fuel ∧ StmtF fuel := by
  induction fuel with
  | zero =>
    refine ⟨?_, ?_, ?_⟩
    · intro j rest h _
      exact absurd h (by omega)
    · intro j tl rest pre _ h
      exact absurd h (by simp [asize] at h ⊢)
    · intro k v tl rest pre _ h
      exact absurd h (by simp [fsize] at h ⊢)
  | succ fuel ih =>
    obtain ⟨ihV, ihA, ihF⟩ := ih
    exact ⟨stmtV_step fuel ihA ihF, stmtA_step fuel ihV ihA,
      stmtF_step fuel ihV ihF⟩

theorem parseJsonTop_serialize (j : Json) :
    parseJsonTop (serializeJson j) = some j := by
  unfold parseJsonTop
  have hfuel : jsize j < (serializeJson j).length + 1 := by
    have := jsize_le_len j
    omega
  have h := (parse_serialize ((serializeJson j).length + 1)).1 j [] hfuel
    (by intro c hc; exact absurd hc (by simp))
  rw [show serializeJson j ++ ([] : List Char) = serializeJson j from by simp]
    at h
  rw [h]
  rfl

/-- C8: extraction is idempotent (and, being modelled as a pure function,
mutates no external state): whenever raw text `x` yields an object `j`,
re-serializing `j` (the spec's `extract_as_text`, modelled from the spec as
`json.dumps`) and extracting again yields the same object `j`. -/
theorem c8_extract_idempotent (x : List Char) (j : Json)
    (_hx : extract_json_object x = .ok j) :
    extract_json_object (serializeJson j) = .ok j := by
  unfold extract_json_object
  rw [clean_json_text_serialize]
  obtain ⟨c0, r0, hser, hh⟩ := serializeJson_head j
  rw [if_neg (by rw [hser]; simp)]
  rw [parseJsonTop_serialize j]

theorem c8_witness :
    extract_json_object
      (serializeJson (Json.obj
        (JsonFields.cons ['a'] (Json.num 1) JsonFields.nil))) =
      .ok (Json.obj (JsonFields.cons ['a'] (Json.num 1) JsonFields.nil)) :=
  c8_extract_idempotent
    ('{' :: '"' :: 'a' :: '"' :: ':' :: ' ' :: '1' :: ['}'])
    (Json.obj (JsonFields.cons ['a'] (Json.num 1) JsonFields.nil))
    (by rfl)

end AutoDebugger
